import Mathlib

/-!
Verification development for the DIMY proximity-tracing implementation
(`bloom.py`, `backend.py`, `sss.py`, `Ed25519.py`, `client.py`).

The Python sources are shallowly embedded: Python arbitrary-precision
integers become `Nat`/`Int`, `bytes` values become `List Nat` (one entry
per byte), fallible operations return `Option`, and the hash/crypto
primitives the sources call (`hashlib.blake2b`, modular `pow`) are
implemented bit-for-bit over `Nat`.  External library behaviour that the
repository only calls (pycryptodome's 16-byte Shamir primitive and its
`EccPoint` constructor) is modelled from the specification and marked as
such in the corresponding doc comments.
-/

/-! ## Byte-level utilities

Python's `int.from_bytes(b, "little")`, `int.to_bytes(n, "little")` and
`str(n).encode()` as used throughout the sources. -/

/-- Little-endian interpretation of a byte list, as in
`int.from_bytes(data, "little")`. -/
def fromLE (bs : List Nat) : Nat :=
  bs.foldr (fun b acc => b + 256 * acc) 0

/-- Little-endian serialization of `n` into exactly `len` bytes
(the truncating core of `int.to_bytes(len, "little")`). -/
def toBytesLE : Nat → Nat → List Nat
  | 0, _ => []
  | len + 1, n => n % 256 :: toBytesLE len (n / 256)

/-- Python `int.to_bytes(len, "little")`, which raises `OverflowError`
when the integer needs more than `len` bytes. -/
def toBytesLEChecked (len n : Nat) : Option (List Nat) :=
  if n < 2 ^ (8 * len) then some (toBytesLE len n) else none

theorem toBytesLE_length (len n : Nat) : (toBytesLE len n).length = len := by
  induction len generalizing n with
  | zero => rfl
  | succ k ih => simp [toBytesLE, ih]

theorem fromLE_toBytesLE (len n : Nat) (h : n < 2 ^ (8 * len)) :
    fromLE (toBytesLE len n) = n := by
  induction len generalizing n with
  | zero =>
    simp only [Nat.mul_zero, Nat.pow_zero, Nat.lt_one_iff] at h
    simp [toBytesLE, fromLE, h]
  | succ k ih =>
    have hdiv : n / 256 < 2 ^ (8 * k) := by
      rw [Nat.div_lt_iff_lt_mul (by norm_num : 0 < 256)]
      calc n < 2 ^ (8 * (k + 1)) := h
        _ = 2 ^ (8 * k) * 256 := by ring
    simp only [toBytesLE, fromLE, List.foldr]
    have : fromLE (toBytesLE k (n / 256)) = n / 256 := ih _ hdiv
    simp only [fromLE] at this
    rw [this]
    omega

/-- Decimal-digit helper for `str(n)`: accumulates ASCII digits. -/
def decAux : Nat → Nat → List Nat
  | 0, _ => []
  | fuel + 1, n => if n < 10 then [48 + n] else decAux fuel (n / 10) ++ [48 + n % 10]

/-- ASCII bytes of the decimal representation of `n`, i.e. Python's
`str(n).encode()` for a natural number. -/
def strBytes (n : Nat) : List Nat := decAux (n + 1) n

/-! ## Popcount

`popCount` is the mathematical number of set bits (the binary digit sum);
`BloomFilter.count` in `bloom.py` computes it with the Kernighan loop
`filter &= filter - 1`.  We prove the two agree. -/

/-- Fuel-driven binary digit sum. -/
def popCountAux : Nat → Nat → Nat
  | 0, _ => 0
  | fuel + 1, n => if n = 0 then 0 else n % 2 + popCountAux fuel (n / 2)

/-- Number of set bits of `n`. -/
def popCount (n : Nat) : Nat := popCountAux n n

theorem popCountAux_congr (f g n : Nat) (hf : n ≤ f) (hg : n ≤ g) :
    popCountAux f n = popCountAux g n := by
  induction f generalizing g n with
  | zero =>
    interval_cases n
    cases g <;> simp [popCountAux]
  | succ f ih =>
    cases g with
    | zero =>
      interval_cases n
      simp [popCountAux]
    | succ g =>
      simp only [popCountAux]
      by_cases h0 : n = 0
      · simp [h0]
      · simp only [h0, if_false]
        rw [ih g (n / 2) (by omega) (by omega)]

theorem popCount_zero : popCount 0 = 0 := rfl

theorem popCount_pos_eq (n : Nat) (h : n ≠ 0) :
    popCount n = n % 2 + popCount (n / 2) := by
  unfold popCount
  cases n with
  | zero => exact absurd rfl h
  | succ m =>
    simp only [popCountAux, h, if_false, Nat.succ_sub_one]
    exact congrArg (m.succ % 2 + ·)
      (popCountAux_congr m (m.succ / 2) (m.succ / 2) (by omega) le_rfl)

theorem popCount_two_mul (m : Nat) : popCount (2 * m) = popCount m := by
  induction m using Nat.strong_induction_on with
  | _ m ih =>
    by_cases h0 : m = 0
    · simp [h0, popCount_zero]
    · rw [popCount_pos_eq (2 * m) (by omega)]
      simp [Nat.mul_mod_right, Nat.mul_div_cancel_left _ (by norm_num : 0 < 2)]

theorem popCount_two_mul_add_one (m : Nat) :
    popCount (2 * m + 1) = popCount m + 1 := by
  rw [popCount_pos_eq (2 * m + 1) (by omega)]
  have h2 : (2 * m + 1) % 2 = 1 := by omega
  have h3 : (2 * m + 1) / 2 = m := by omega
  rw [h2, h3, Nat.add_comm]

/-- Clearing the lowest set bit: `(2m+1) &&& 2m = 2m`. -/
theorem land_pred_odd (m : Nat) : (2 * m + 1) &&& (2 * m) = 2 * m := by
  apply Nat.eq_of_testBit_eq
  intro i
  rw [Nat.testBit_land]
  cases i with
  | zero =>
    simp only [Nat.testBit_zero]
    have h1 : (2 * m + 1) % 2 = 1 := by omega
    have h2 : (2 * m) % 2 = 0 := by omega
    simp [h1, h2]
  | succ j =>
    simp only [Nat.testBit_succ]
    have h1 : (2 * m + 1) / 2 = m := by omega
    have h2 : (2 * m) / 2 = m := by omega
    rw [h1, h2, Bool.and_self]

/-- Clearing the lowest set bit, even case: `2m &&& (2m - 1) = 2·(m &&& (m-1))`
for `m > 0`. -/
theorem land_pred_even (m : Nat) (hm : 0 < m) :
    (2 * m) &&& (2 * m - 1) = 2 * (m &&& (m - 1)) := by
  apply Nat.eq_of_testBit_eq
  intro i
  rw [Nat.testBit_land]
  cases i with
  | zero =>
    simp only [Nat.testBit_zero]
    have h1 : (2 * m) % 2 = 0 := by omega
    have h2 : (2 * (m &&& (m - 1))) % 2 = 0 := by omega
    simp [h1, h2]
  | succ j =>
    simp only [Nat.testBit_succ]
    have h1 : (2 * m) / 2 = m := by omega
    have h2 : (2 * m - 1) / 2 = m - 1 := by omega
    have h3 : (2 * (m &&& (m - 1))) / 2 = m &&& (m - 1) := by omega
    rw [h1, h2, h3, Nat.testBit_land]

/-- Kernighan's step removes exactly one set bit from the popcount. -/
theorem popCount_land_pred (n : Nat) (h : n ≠ 0) :
    popCount (n &&& (n - 1)) + 1 = popCount n := by
  induction n using Nat.strong_induction_on with
  | _ n ih =>
    rcases Nat.even_or_odd n with ⟨m, hm⟩ | ⟨m, hm⟩
    · subst hm
      have hmpos : 0 < m := by omega
      rw [show m + m = 2 * m by ring] at h ⊢
      rw [land_pred_even m hmpos, popCount_two_mul, popCount_two_mul]
      by_cases hm1 : m = 1
      · subst hm1; decide
      · exact ih m (by omega) (by omega)
    · subst hm
      rw [Nat.add_sub_cancel, land_pred_odd, popCount_two_mul,
        popCount_two_mul_add_one]

/-! ## The Kernighan loop of `BloomFilter.count` -/

/-- Fuel-driven version of the loop
`while filter: c += 1; filter &= filter - 1` from `bloom.py`. -/
def countAux : Nat → Nat → Nat
  | 0, _ => 0
  | fuel + 1, n => if n = 0 then 0 else countAux fuel (n &&& (n - 1)) + 1

theorem countAux_eq_popCount (fuel n : Nat) (h : n < fuel) :
    countAux fuel n = popCount n := by
  induction fuel generalizing n with
  | zero => omega
  | succ f ih =>
    by_cases h0 : n = 0
    · simp [h0, countAux, popCount_zero]
    · have hlt : n &&& (n - 1) < f := by
        have := @Nat.and_le_right n (n - 1)
        omega
      simp only [countAux, h0, if_false]
      rw [ih _ hlt, popCount_land_pred n h0]

/-! ## Modular exponentiation

Python's three-argument `pow(a, e, m)`, used by `Ed25519.py`.  The fuel
`300` covers every exponent below `2 ^ 300`, which includes all exponents
appearing in the sources (they are below `2 ^ 256`). -/

/-- Square-and-multiply core of `pow(a, e, m)`. -/
def powModAux : Nat → Nat → Nat → Nat → Nat
  | 0, _, _, m => 1 % m
  | fuel + 1, a, e, m =>
    if e = 0 then 1 % m
    else
      let r := powModAux fuel (a * a % m) (e / 2) m
      if e % 2 = 1 then a * r % m else r

/-- Python `pow(a, e, m)` for exponents below `2 ^ 300`. -/
def powMod (a e m : Nat) : Nat := powModAux 300 a e m

theorem powModAux_spec (fuel : Nat) :
    ∀ a e m : Nat, 0 < m → e < 2 ^ fuel → powModAux fuel a e m = a ^ e % m := by
  induction fuel with
  | zero =>
    intro a e m hm he
    interval_cases e
    simp [powModAux]
  | succ f ih =>
    intro a e m hm he
    by_cases h0 : e = 0
    · simp [powModAux, h0]
    · have hdiv : e / 2 < 2 ^ f := by
        have : 2 ^ (f + 1) = 2 ^ f * 2 := by ring
        omega
      have hrec := ih (a * a % m) (e / 2) m hm hdiv
      have hpow : (a * a % m) ^ (e / 2) % m = (a * a) ^ (e / 2) % m :=
        Nat.pow_mod (a * a) (e / 2) m ▸ by rw [Nat.pow_mod]
      simp only [powModAux, h0, if_false]
      rcases Nat.even_or_odd e with ⟨k, hk⟩ | ⟨k, hk⟩
      · have hmod : ¬ e % 2 = 1 := by omega
        have hediv : e / 2 = k := by omega
        rw [if_neg hmod, hrec, hpow, hediv]
        have hpe : (a * a) ^ k = a ^ e := by rw [hk]; ring
        rw [hpe]
      · have hmod : e % 2 = 1 := by omega
        have hediv : e / 2 = k := by omega
        rw [if_pos hmod, hrec, hpow, hediv]
        have hpe : a * (a * a) ^ k = a ^ e := by rw [hk]; ring
        rw [Nat.mul_mod, Nat.mod_mod_of_dvd _ (dvd_refl m), ← Nat.mul_mod, hpe]

theorem powMod_spec (a e m : Nat) (hm : 0 < m) (he : e < 2 ^ 300) :
    powMod a e m = a ^ e % m :=
  powModAux_spec 300 a e m hm he

/-! ## BLAKE2b

A bit-for-bit implementation of `hashlib.blake2b(message, digest_size,
key)` (RFC 7693) over `Nat`, with 64-bit words represented as naturals
below `2 ^ 64`.  `bloom.py` uses it keyed with 3-byte digests and
`sss.py`/`client.py` use it unkeyed with 32-byte digests. -/

/-- 64-bit wrap-around addition. -/
def add64 (a b : Nat) : Nat := (a + b) % 18446744073709551616

/-- 64-bit right rotation. -/
def rotr64 (x n : Nat) : Nat :=
  (x >>> n) ||| ((x <<< (64 - n)) % 18446744073709551616)

/-- BLAKE2b initialization vector. -/
def blakeIV : List Nat :=
  [0x6a09e667f3bcc908, 0xbb67ae8584caa73b, 0x3c6ef372fe94f82b,
   0xa54ff53a5f1d36f1, 0x510e527fade682d1, 0x9b05688c2b3e6c1f,
   0x1f83d9abfb41bd6b, 0x5be0cd19137e2179]

/-- BLAKE2b message schedule. -/
def blakeSigma : List (List Nat) :=
  [[0, 1, 2, 3, 4, 5, 6, 7, 8, 9, 10, 11, 12, 13, 14, 15],
   [14, 10, 4, 8, 9, 15, 13, 6, 1, 12, 0, 2, 11, 7, 5, 3],
   [11, 8, 12, 0, 5, 2, 15, 13, 10, 14, 3, 6, 7, 1, 9, 4],
   [7, 9, 3, 1, 13, 12, 11, 14, 2, 6, 5, 10, 4, 0, 15, 8],
   [9, 0, 5, 7, 2, 4, 10, 15, 14, 1, 11, 12, 6, 8, 3, 13],
   [2, 12, 6, 10, 0, 11, 8, 3, 4, 13, 7, 5, 15, 14, 1, 9],
   [12, 5, 1, 15, 14, 13, 4, 10, 0, 7, 6, 3, 9, 2, 8, 11],
   [13, 11, 7, 14, 12, 1, 3, 9, 5, 0, 15, 4, 8, 6, 2, 10],
   [6, 15, 14, 9, 11, 3, 0, 8, 12, 2, 13, 7, 1, 4, 10, 5],
   [10, 2, 8, 4, 7, 6, 1, 5, 15, 11, 9, 14, 3, 12, 13, 0]]

/-- BLAKE2b mixing function `G` acting on the work vector `v`. -/
def gMix (v : List Nat) (a b c d x y : Nat) : List Nat :=
  let va := add64 (add64 (v.getD a 0) (v.getD b 0)) x
  let vd := rotr64 (Nat.xor (v.getD d 0) va) 32
  let vc := add64 (v.getD c 0) vd
  let vb := rotr64 (Nat.xor (v.getD b 0) vc) 24
  let va2 := add64 (add64 va vb) y
  let vd2 := rotr64 (Nat.xor vd va2) 16
  let vc2 := add64 vc vd2
  let vb2 := rotr64 (Nat.xor vb vc2) 63
  (((v.set a va2).set b vb2).set c vc2).set d vd2

/-- One of the 12 BLAKE2b rounds. -/
def blakeRound (m : List Nat) (v : List Nat) (i : Nat) : List Nat :=
  let s := blakeSigma.getD (i % 10) []
  let mi := fun j => m.getD (s.getD j 0) 0
  let v1 := gMix v 0 4 8 12 (mi 0) (mi 1)
  let v2 := gMix v1 1 5 9 13 (mi 2) (mi 3)
  let v3 := gMix v2 2 6 10 14 (mi 4) (mi 5)
  let v4 := gMix v3 3 7 11 15 (mi 6) (mi 7)
  let v5 := gMix v4 0 5 10 15 (mi 8) (mi 9)
  let v6 := gMix v5 1 6 11 12 (mi 10) (mi 11)
  let v7 := gMix v6 2 7 8 13 (mi 12) (mi 13)
  gMix v7 3 4 9 14 (mi 14) (mi 15)

/-- Sixteen little-endian 64-bit words of a 128-byte block. -/
def wordsOfBlock (block : List Nat) : List Nat :=
  (List.range 16).map (fun i => fromLE (((block.drop (8 * i)).take 8)))

/-- BLAKE2b compression function `F`. -/
def compressF (h : List Nat) (m : List Nat) (t : Nat) (last : Bool) : List Nat :=
  let v0 := h ++ blakeIV
  let v1 := v0.set 12 (Nat.xor (v0.getD 12 0) (t % 18446744073709551616))
  let v2 := v1.set 13 (Nat.xor (v1.getD 13 0) (t / 18446744073709551616))
  let v3 := if last then v2.set 14 (Nat.xor (v2.getD 14 0) 18446744073709551615) else v2
  let vf := (List.range 12).foldl (blakeRound m) v3
  (List.range 8).map (fun i => Nat.xor (h.getD i 0) (Nat.xor (vf.getD i 0) (vf.getD (i + 8) 0)))

/-- Split a byte stream into zero-padded 128-byte blocks. -/
def chunk128 : Nat → List Nat → List (List Nat)
  | 0, _ => []
  | fuel + 1, l =>
    if l.length ≤ 128 then [l ++ List.replicate (128 - l.length) 0]
    else l.take 128 :: chunk128 fuel (l.drop 128)

/-- BLAKE2b hash of `msg` with optional `key` (empty list for unkeyed) and
digest length `nn` bytes, as computed by `hashlib.blake2b` with default
salt/personalization/tree parameters. -/
def blake2b (key msg : List Nat) (nn : Nat) : List Nat :=
  let kk := key.length
  let h0 := blakeIV.set 0
    (Nat.xor (blakeIV.getD 0 0) (Nat.xor 0x01010000 (Nat.xor (kk <<< 8) nn)))
  let stream := (if kk = 0 then [] else key ++ List.replicate (128 - kk) 0) ++ msg
  if stream.length = 0 then
    (((compressF h0 (List.replicate 16 0) 0 true).map (toBytesLE 8)).flatten).take nn
  else
    let bs := chunk128 (stream.length + 1) stream
    let nb := bs.length
    let hf := (List.range nb).foldl
      (fun h i =>
        if i + 1 = nb then compressF h (wordsOfBlock (bs.getD i [])) stream.length true
        else compressF h (wordsOfBlock (bs.getD i [])) (128 * (i + 1)) false) h0
    ((hf.map (toBytesLE 8)).flatten).take nn

/-- Python's `hashlib.blake2b` constructor validation: the digest size
must be between 1 and 64 bytes and the key at most 64 bytes. -/
def blake2bChecked (key msg : List Nat) (nn : Nat) : Option (List Nat) :=
  if 1 ≤ nn ∧ nn ≤ 64 ∧ key.length ≤ 64 then some (blake2b key msg nn) else none

/-! ## Bit-length helper

Python's `int.bit_length()`, used by `bloom.py` to size digests.  The
constructor's `filter.bit_length() > byte_size * 8` test is embedded as
the equivalent `2 ^ (byte_size * 8) ≤ filter` (see `bitLen_gt_iff`). -/

/-- Fuel-driven binary length. -/
def bitLenAux : Nat → Nat → Nat
  | 0, _ => 0
  | fuel + 1, n => if n = 0 then 0 else bitLenAux fuel (n / 2) + 1

/-- Python `n.bit_length()`. -/
def bitLen (n : Nat) : Nat := bitLenAux n n

theorem bitLenAux_le_iff (fuel n k : Nat) (h : n ≤ fuel) :
    bitLenAux fuel n ≤ k ↔ n < 2 ^ k := by
  induction fuel generalizing n k with
  | zero =>
    interval_cases n
    simp [bitLenAux, Nat.pos_pow_of_pos]
  | succ f ih =>
    by_cases h0 : n = 0
    · subst h0
      simp [bitLenAux, Nat.pos_pow_of_pos]
    · simp only [bitLenAux, h0, if_false]
      cases k with
      | zero =>
        simp only [Nat.pow_zero, Nat.lt_one_iff]
        omega
      | succ j =>
        rw [Nat.add_le_add_iff_right, ih (n / 2) j (by omega)]
        constructor
        · intro hd
          have : 2 ^ (j + 1) = 2 ^ j * 2 := by ring
          omega
        · intro hn
          have : 2 ^ (j + 1) = 2 ^ j * 2 := by ring
          omega

theorem bitLen_le_iff (n k : Nat) : bitLen n ≤ k ↔ n < 2 ^ k :=
  bitLenAux_le_iff n n k le_rfl

/-- The constructor test `filter.bit_length() > byte_size * 8` from
`bloom.py` is exactly `2 ^ (byte_size * 8) ≤ filter`. -/
theorem bitLen_gt_iff (n k : Nat) : k < bitLen n ↔ 2 ^ k ≤ n := by
  have := bitLen_le_iff n k
  omega

/-! ## Bloom filter (`bloom.py`)

`BloomFilter` keeps the three constructor attributes; `bit_size` and
`digest_size` are the derived attributes computed in `__init__`.
Fallible operations (hash generation can violate `hashlib.blake2b`
bounds; `__or__`/`__and__` demand equal parameters) return `Option`. -/

/-- State of a `bloom.BloomFilter`. -/
structure BloomFilter where
  byte_size : Nat
  hash_rounds : Nat
  filter : Nat
deriving DecidableEq, Repr

/-- Default `FILTER_SIZE` (bytes) of `bloom.py`. -/
def FILTER_SIZE : Nat := 100000

/-- Default `HASH_ROUNDS` of `bloom.py`. -/
def HASH_ROUNDS : Nat := 3

/-- Derived attribute `bit_size = byte_size * 8`. -/
def BloomFilter.bit_size (bf : BloomFilter) : Nat := bf.byte_size * 8

/-- Derived attribute `digest_size = ceil(bit_size.bit_length() / 8)`. -/
def BloomFilter.digest_size (bf : BloomFilter) : Nat := (bitLen bf.bit_size + 7) / 8

/-- The constructor `BloomFilter(byte_size, hash_rounds, filter)`, which
raises `ValueError` when `filter.bit_length() > byte_size * 8`. -/
def mkBloomFilter (byte_size hash_rounds filter : Nat) : Option BloomFilter :=
  if 1 <<< (byte_size * 8) ≤ filter then none
  else some ⟨byte_size, hash_rounds, filter⟩

/-- The `generate_hashes` generator: round `i` hashes the decimal ASCII
encoding of the key with `blake2b` keyed by the decimal ASCII encoding of
`i`, reducing the little-endian digest modulo `bit_size`.  `none` models
the `hashlib.blake2b` parameter errors (digest size outside `1..64`, key
longer than 64 bytes). -/
def BloomFilter.generateHashes (bf : BloomFilter) (key : Nat) : Option (List Nat) :=
  if 1 ≤ bf.digest_size ∧ bf.digest_size ≤ 64 ∧
      ∀ i ∈ List.range bf.hash_rounds, (strBytes i).length ≤ 64 then
    some ((List.range bf.hash_rounds).map
      (fun i => fromLE (blake2b (strBytes i) (strBytes key) bf.digest_size) % bf.bit_size))
  else none

/-- The `add` method: set the bit at each generated index. -/
def BloomFilter.add (bf : BloomFilter) (key : Nat) : Option BloomFilter :=
  (bf.generateHashes key).map
    (fun idxs => ⟨bf.byte_size, bf.hash_rounds,
      idxs.foldl (fun f i => f ||| (1 <<< i)) bf.filter⟩)

/-- The `__contains__` method: all generated bits must be set. -/
def BloomFilter.containsKey (bf : BloomFilter) (key : Nat) : Option Bool :=
  (bf.generateHashes key).map
    (fun idxs =>
      let checker := idxs.foldl (fun c i => c ||| (1 <<< i)) 0
      (checker &&& bf.filter) == checker)

/-- The `same_param` check (`byte_size` and `hash_rounds` agree). -/
def BloomFilter.sameParam (a b : BloomFilter) : Bool :=
  a.byte_size == b.byte_size && a.hash_rounds == b.hash_rounds

/-- The `__or__` method (raises `NotImplementedError` on a parameter
mismatch, then re-runs the constructor on the united backing integer). -/
def BloomFilter.orFilter (a b : BloomFilter) : Option BloomFilter :=
  if a.sameParam b then mkBloomFilter a.byte_size a.hash_rounds (a.filter ||| b.filter)
  else none

/-- The `__and__` method. -/
def BloomFilter.andFilter (a b : BloomFilter) : Option BloomFilter :=
  if a.sameParam b then mkBloomFilter a.byte_size a.hash_rounds (a.filter &&& b.filter)
  else none

/-- The `count` method (Kernighan loop). -/
def BloomFilter.count (bf : BloomFilter) : Nat := countAux (bf.filter + 1) bf.filter

theorem BloomFilter.count_eq_popCount (bf : BloomFilter) :
    bf.count = popCount bf.filter :=
  countAux_eq_popCount _ _ (Nat.lt_succ_self _)

/-! ## The backend server (`backend.py`)

One accepted connection: read a 3-byte tag, read a `FILTER_SIZE`-byte
little-endian filter, and dispatch.  The result is `none` when the Python
handler raises (impossible for filters that fit in `FILTER_SIZE` bytes);
otherwise it is the new standing filter paired with the reply sent before
closing (`none` would mean the connection is closed without a reply —
the source always replies). -/

/-- Reply to a `"CBF"` upload. -/
def cbfReply : String := "Server: Contact Bloom Filter received."

/-- Reply when the intersection popcount reaches `HASH_ROUNDS`. -/
def positiveReply : String := "Server: You have been in contact with a positive case."

/-- Reply when the intersection popcount is below `HASH_ROUNDS`. -/
def negativeReply : String := "Server: No contact with a positive case was detected."

/-- One connection of `Backend.start`: the tag dispatch of `backend.py`
(`if type == "CBF": ... else: <QBF match analysis>`). -/
def backendStep (bf : BloomFilter) (tag : String) (clientFilter : Nat) :
    Option (BloomFilter × Option String) :=
  (mkBloomFilter FILTER_SIZE HASH_ROUNDS clientFilter).bind
    (fun client =>
      if tag = "CBF" then
        (bf.orFilter client).map (fun nf => (nf, some cbfReply))
      else
        (bf.andFilter client).map
          (fun inter =>
            (bf, some (if HASH_ROUNDS ≤ inter.count then positiveReply
                       else negativeReply))))

/-! ## Bloom filter bounds -/

theorem one_shiftLeft_eq_pow (n : Nat) : 1 <<< n = 2 ^ n := by
  rw [Nat.shiftLeft_eq, Nat.one_mul]

theorem lor_lt_two_pow {x y n : Nat} (hx : x < 2 ^ n) (hy : y < 2 ^ n) :
    x ||| y < 2 ^ n :=
  Nat.bitwise_lt_two_pow hx hy

theorem land_lt_two_pow {x y n : Nat} (hy : y < 2 ^ n) : x &&& y < 2 ^ n :=
  Nat.lt_of_le_of_lt Nat.and_le_right hy

theorem mkBloomFilter_some {bs hr f : Nat} {bf : BloomFilter}
    (h : mkBloomFilter bs hr f = some bf) :
    bf = ⟨bs, hr, f⟩ ∧ f < 2 ^ (bs * 8) := by
  unfold mkBloomFilter at h
  by_cases hc : 1 <<< (bs * 8) ≤ f
  · rw [if_pos hc] at h
    exact absurd h (by simp)
  · rw [if_neg hc] at h
    rw [one_shiftLeft_eq_pow] at hc
    exact ⟨(Option.some_injective _ h).symm, by omega⟩

theorem mkBloomFilter_some_of_lt {bs hr f : Nat} (h : f < 2 ^ (bs * 8)) :
    mkBloomFilter bs hr f = some ⟨bs, hr, f⟩ := by
  unfold mkBloomFilter
  rw [if_neg (by rw [one_shiftLeft_eq_pow]; omega)]

theorem generateHashes_bounds {bf : BloomFilter} {key : Nat} {idxs : List Nat}
    (h : bf.generateHashes key = some idxs) :
    0 < bf.bit_size ∧ ∀ i ∈ idxs, i < bf.bit_size := by
  unfold BloomFilter.generateHashes at h
  by_cases hc : 1 ≤ bf.digest_size ∧ bf.digest_size ≤ 64 ∧
      ∀ i ∈ List.range bf.hash_rounds, (strBytes i).length ≤ 64
  · have hpos : 0 < bf.bit_size := by
      rcases Nat.eq_zero_or_pos bf.bit_size with h0 | h0
      · exfalso
        have : bf.digest_size = 0 := by
          unfold BloomFilter.digest_size
          rw [h0]
          rfl
        omega
      · exact h0
    rw [if_pos hc] at h
    refine ⟨hpos, ?_⟩
    intro i hi
    obtain ⟨j, _, hj⟩ := List.mem_map.mp ((Option.some_injective _ h) ▸ hi)
    rw [← hj]
    exact Nat.mod_lt _ hpos
  · rw [if_neg hc] at h
    exact absurd h (by simp)

theorem foldl_lor_bound (idxs : List Nat) (f B : Nat) (hf : f < 2 ^ B)
    (hidx : ∀ i ∈ idxs, i < B) :
    idxs.foldl (fun f i => f ||| (1 <<< i)) f < 2 ^ B := by
  induction idxs generalizing f with
  | nil => exact hf
  | cons a l ih =>
    simp only [List.foldl_cons]
    apply ih
    · apply lor_lt_two_pow hf
      rw [one_shiftLeft_eq_pow]
      exact Nat.pow_lt_pow_right (by norm_num) (hidx a (by simp))
    · intro i hi
      exact hidx i (by simp [hi])

/-- Bloom filters reachable through the public operations of `bloom.py`:
the constructor, `add`, `__or__` and `__and__`. -/
inductive BloomReachable : BloomFilter → Prop where
  | init (bs hr f : Nat) (bf : BloomFilter) :
      mkBloomFilter bs hr f = some bf → BloomReachable bf
  | add (bf bf2 : BloomFilter) (key : Nat) :
      BloomReachable bf → bf.add key = some bf2 → BloomReachable bf2
  | union (a b c : BloomFilter) :
      BloomReachable a → BloomReachable b → a.orFilter b = some c →
      BloomReachable c
  | inter (a b c : BloomFilter) :
      BloomReachable a → BloomReachable b → a.andFilter b = some c →
      BloomReachable c

theorem bloomReachable_bound {bf : BloomFilter} (h : BloomReachable bf) :
    bf.filter < 2 ^ (bf.byte_size * 8) := by
  induction h with
  | init bs hr f bf2 hmk =>
    obtain ⟨rfl, hb⟩ := mkBloomFilter_some hmk
    exact hb
  | add bf bf2 key _ hadd ih =>
    unfold BloomFilter.add at hadd
    rcases hgen : bf.generateHashes key with _ | idxs
    · rw [hgen] at hadd
      exact absurd hadd (by simp)
    · rw [hgen] at hadd
      have hadd2 : (⟨bf.byte_size, bf.hash_rounds,
          idxs.foldl (fun f i => f ||| (1 <<< i)) bf.filter⟩ : BloomFilter) = bf2 := by
        simpa using hadd
      obtain ⟨hpos, hbnd⟩ := generateHashes_bounds hgen
      rw [← hadd2]
      exact foldl_lor_bound idxs bf.filter (bf.byte_size * 8) ih
        (fun i hi => hbnd i hi)
  | union a b c _ _ hor iha ihb =>
    unfold BloomFilter.orFilter at hor
    by_cases hsp : a.sameParam b
    · rw [if_pos hsp] at hor
      obtain ⟨rfl, hb⟩ := mkBloomFilter_some hor
      exact hb
    · rw [if_neg hsp] at hor
      exact absurd hor (by simp)
  | inter a b c _ _ hand iha ihb =>
    unfold BloomFilter.andFilter at hand
    by_cases hsp : a.sameParam b
    · rw [if_pos hsp] at hand
      obtain ⟨rfl, hb⟩ := mkBloomFilter_some hand
      exact hb
    · rw [if_neg hsp] at hand
      exact absurd hand (by simp)

/-- C10: every BloomFilter reachable through the public operations
(constructor, add, union, intersection) keeps its backing integer
strictly below `2 ^ (8 * byte_size)`, so serializing a reachable filter
into exactly `byte_size` bytes (`filter.to_bytes(byte_size, "little")`)
never fails. -/
theorem C10_bloom_filter_in_bounds (bf : BloomFilter) (h : BloomReachable bf) :
    bf.filter < 2 ^ (8 * bf.byte_size) ∧
      (toBytesLEChecked bf.byte_size bf.filter).isSome = true := by
  have hb := bloomReachable_bound h
  rw [Nat.mul_comm] at hb
  refine ⟨hb, ?_⟩
  unfold toBytesLEChecked
  rw [if_pos hb]
  rfl

/-- Witness for C10 at the freshly constructed default filter. -/
theorem C10_bloom_filter_in_bounds_witness :
    (⟨100000, 3, 0⟩ : BloomFilter).filter < 2 ^ (8 * (100000 : Nat)) ∧
      (toBytesLEChecked 100000 0).isSome = true :=
  C10_bloom_filter_in_bounds ⟨100000, 3, 0⟩
    (BloomReachable.init 100000 3 0 ⟨100000, 3, 0⟩ rfl)

/-! ## Backend claim support -/

theorem backendStep_nonCBF (bf : BloomFilter) (tag : String) (q : Nat)
    (hbs : bf.byte_size = FILTER_SIZE) (hhr : bf.hash_rounds = HASH_ROUNDS)
    (hq : q < 2 ^ (8 * FILTER_SIZE)) (htag : tag ≠ "CBF") :
    backendStep bf tag q =
      some (bf, some (if HASH_ROUNDS ≤ popCount (bf.filter &&& q)
                      then positiveReply else negativeReply)) := by
  have hq8 : q < 2 ^ (FILTER_SIZE * 8) := by rw [Nat.mul_comm]; exact hq
  have hand : bf.filter &&& q < 2 ^ (FILTER_SIZE * 8) := land_lt_two_pow hq8
  unfold backendStep
  rw [mkBloomFilter_some_of_lt hq8]
  simp only [Option.some_bind]
  rw [if_neg htag]
  unfold BloomFilter.andFilter
  have hsp : bf.sameParam ⟨FILTER_SIZE, HASH_ROUNDS, q⟩ = true := by
    unfold BloomFilter.sameParam
    rw [hbs, hhr]
    simp
  rw [if_pos hsp, hbs, hhr]
  rw [mkBloomFilter_some_of_lt hand]
  have hc : (⟨FILTER_SIZE, HASH_ROUNDS, bf.filter &&& q⟩ : BloomFilter).count
      = popCount (bf.filter &&& q) := BloomFilter.count_eq_popCount _
  simp only [Option.map_some', hc]

/-- C1: for an accepted backend connection whose 3-byte tag is `"QBF"`
with a `FILTER_SIZE`-byte little-endian filter `q`, the backend replies
the positive-contact string if and only if the popcount of the
intersection of its standing filter with `q` is at least
`HASH_ROUNDS = 3`, and replies the no-detection string otherwise; the
standing filter is unchanged by the query. -/
theorem C1_backend_qbf_match (standing : BloomFilter) (q : Nat)
    (hbs : standing.byte_size = FILTER_SIZE)
    (hhr : standing.hash_rounds = HASH_ROUNDS)
    (hq : q < 2 ^ (8 * FILTER_SIZE)) :
    backendStep standing "QBF" q =
      some (standing, some (if HASH_ROUNDS ≤ popCount (standing.filter &&& q)
                            then positiveReply else negativeReply)) :=
  backendStep_nonCBF standing "QBF" q hbs hhr hq (by decide)

/-- Witness for C1 at the empty standing filter and the zero query. -/
theorem C1_backend_qbf_match_witness :
    backendStep ⟨FILTER_SIZE, HASH_ROUNDS, 0⟩ "QBF" 0 =
      some (⟨FILTER_SIZE, HASH_ROUNDS, 0⟩,
        some (if HASH_ROUNDS ≤
                popCount ((⟨FILTER_SIZE, HASH_ROUNDS, 0⟩ : BloomFilter).filter &&& 0)
              then positiveReply else negativeReply)) :=
  C1_backend_qbf_match ⟨FILTER_SIZE, HASH_ROUNDS, 0⟩ 0 rfl rfl
    (pow_pos (by norm_num) _)

/-- C6 as stated is false: `backend.py` dispatches `if type == "CBF": ...
else: <QBF analysis>`, so a connection with the unknown tag `"XYZ"` is
answered with a match-analysis reply instead of being closed without a
reply (`none`). -/
theorem C6_counterexample :
    ¬ (∀ (bf : BloomFilter) (tag : String) (q : Nat),
        bf.byte_size = FILTER_SIZE → bf.hash_rounds = HASH_ROUNDS →
        q < 2 ^ (8 * FILTER_SIZE) → tag ≠ "CBF" → tag ≠ "QBF" →
        backendStep bf tag q = some (bf, none)) := by
  intro h
  exact absurd
    (h ⟨FILTER_SIZE, HASH_ROUNDS, 0⟩ "XYZ" 0 rfl rfl (pow_pos (by norm_num) _)
      (by decide) (by decide))
    (by decide)

/-- C6 amended: an accepted backend connection whose 3-byte type tag is
not `"CBF"` (in particular any tag that is neither `"CBF"` nor `"QBF"`)
is handled as a QBF query: the backend sends the match-analysis reply and
closes, rather than closing without a reply. -/
theorem C6_nonCBF_handled_as_qbf (bf : BloomFilter) (tag : String) (q : Nat)
    (hbs : bf.byte_size = FILTER_SIZE) (hhr : bf.hash_rounds = HASH_ROUNDS)
    (hq : q < 2 ^ (8 * FILTER_SIZE)) (htag : tag ≠ "CBF") :
    backendStep bf tag q =
      some (bf, some (if HASH_ROUNDS ≤ popCount (bf.filter &&& q)
                      then positiveReply else negativeReply)) :=
  backendStep_nonCBF bf tag q hbs hhr hq htag

/-- Witness for the amended C6 at the unknown tag `"XYZ"`. -/
theorem C6_nonCBF_handled_as_qbf_witness :
    backendStep ⟨FILTER_SIZE, HASH_ROUNDS, 0⟩ "XYZ" 0 =
      some (⟨FILTER_SIZE, HASH_ROUNDS, 0⟩,
        some (if HASH_ROUNDS ≤
                popCount ((⟨FILTER_SIZE, HASH_ROUNDS, 0⟩ : BloomFilter).filter &&& 0)
              then positiveReply else negativeReply)) :=
  C6_nonCBF_handled_as_qbf ⟨FILTER_SIZE, HASH_ROUNDS, 0⟩ "XYZ" 0 rfl rfl
    (pow_pos (by norm_num) _) (by decide)

/-! ## Claim C4 support -/

theorem land_lor_absorb_left {c x y : Nat} (h : c &&& x = c) :
    c &&& (x ||| y) = c := by
  apply Nat.eq_of_testBit_eq
  intro i
  have hi := congrArg (fun n => n.testBit i) h
  simp only [Nat.testBit_land, Nat.testBit_lor] at hi ⊢
  cases hc : c.testBit i <;> cases hx : x.testBit i <;> simp_all

theorem land_lor_absorb_right {c x y : Nat} (h : c &&& y = c) :
    c &&& (x ||| y) = c := by
  rw [Nat.lor_comm]
  exact land_lor_absorb_left h

theorem orFilter_some {f g u : BloomFilter} (h : f.orFilter g = some u) :
    g.byte_size = f.byte_size ∧ g.hash_rounds = f.hash_rounds ∧
      u = ⟨f.byte_size, f.hash_rounds, f.filter ||| g.filter⟩ := by
  unfold BloomFilter.orFilter at h
  by_cases hsp : f.sameParam g
  · have hparam := hsp
    unfold BloomFilter.sameParam at hparam
    rw [Bool.and_eq_true, beq_iff_eq, beq_iff_eq] at hparam
    rw [if_pos hsp] at h
    obtain ⟨rfl, _⟩ := mkBloomFilter_some h
    exact ⟨hparam.1.symm, hparam.2.symm, rfl⟩
  · rw [if_neg hsp] at h
    exact absurd h (by simp)

/-- C4 amended: the union has no false negatives — if either operand
contains a key then so does the union (the converse direction of the
claim is false, see the counterexample). -/
theorem C4_union_contains_of_operand (f g u : BloomFilter) (k : Nat)
    (bfv bgv : Bool) (hor : f.orFilter g = some u)
    (hf : f.containsKey k = some bfv) (hg : g.containsKey k = some bgv)
    (hone : bfv = true ∨ bgv = true) :
    u.containsKey k = some true := by
  obtain ⟨hbs, hhr, rfl⟩ := orFilter_some hor
  rcases f with ⟨bs, hr, xf⟩
  rcases g with ⟨bs2, hr2, xg⟩
  dsimp only at hbs hhr ⊢
  rw [hbs, hhr] at hg
  have hgen : (⟨bs, hr, xg⟩ : BloomFilter).generateHashes k =
      (⟨bs, hr, xf⟩ : BloomFilter).generateHashes k := rfl
  have hgenu : (⟨bs, hr, xf ||| xg⟩ : BloomFilter).generateHashes k =
      (⟨bs, hr, xf⟩ : BloomFilter).generateHashes k := rfl
  unfold BloomFilter.containsKey at hf hg ⊢
  rw [hgen] at hg
  rw [hgenu]
  rcases hgv : (⟨bs, hr, xf⟩ : BloomFilter).generateHashes k with _ | idxs
  · rw [hgv] at hf
    exact absurd hf (by simp)
  · rw [hgv] at hf hg
    simp only [Option.map_some'] at hf hg ⊢
    set checker := idxs.foldl (fun c i => c ||| (1 <<< i)) 0 with hch
    have hfv : ((checker &&& xf) == checker) = bfv := by
      exact Option.some_injective _ hf
    have hgv2 : ((checker &&& xg) == checker) = bgv := by
      exact Option.some_injective _ hg
    rcases hone with h1 | h1
    · rw [h1] at hfv
      have : checker &&& xf = checker := by
        have := beq_iff_eq.mp hfv
        exact this
      rw [land_lor_absorb_left this]
      simp
    · rw [h1] at hgv2
      have : checker &&& xg = checker := beq_iff_eq.mp hgv2
      rw [land_lor_absorb_right this]
      simp

set_option maxRecDepth 100000 in
/-- C4 as stated is false in the union-to-operand direction: with the
default parameters the key `0` hashes to the bit indices `757706`,
`271472` and `546131`; a filter holding only the first and a filter
holding only the other two both fail `contains 0`, while their union
holds all three bits and so contains `0`. -/
theorem C4_counterexample :
    ¬ (∀ (f g u : BloomFilter) (k : Nat) (bu bfv bgv : Bool),
        f.orFilter g = some u →
        u.containsKey k = some bu → f.containsKey k = some bfv →
        g.containsKey k = some bgv →
        (bu = true ↔ (bfv = true ∨ bgv = true))) := by
  intro h
  have hc := h ⟨100000, 3, 1 <<< 757706⟩
    ⟨100000, 3, (1 <<< 271472) ||| (1 <<< 546131)⟩
    ⟨100000, 3, (1 <<< 757706) ||| ((1 <<< 271472) ||| (1 <<< 546131))⟩
    0 true false false
    (by decide) (by decide) (by decide) (by decide)
  exact absurd (hc.mp rfl) (by simp)

set_option maxRecDepth 100000 in
/-- Witness for the amended C4: with one-byte filters the key `0` hashes
to the bit indices `0`, `6` and `6`; the filter `65` contains it, and the
union of `65` with the empty filter contains it too. -/
theorem C4_union_contains_of_operand_witness :
    (⟨1, 3, 65 ||| 0⟩ : BloomFilter).containsKey 0 = some true :=
  C4_union_contains_of_operand ⟨1, 3, 65⟩ ⟨1, 3, 0⟩ ⟨1, 3, 65 ||| 0⟩ 0
    true false (by decide) (by decide) (by decide) (Or.inl rfl)

/-! ## Client share broadcaster (`client.py`, `eph_share`)

Scheduler time is modelled in tenths of a second (the listener grid).
`eph_share` first reschedules itself for the next `SHARE_TIME` boundary,
then calls `queue.Queue.get()` — which blocks forever when the queue is
empty, because the queue is only refilled from the same single-threaded
scheduler.  The outer `Option` models completion of the tick: `none`
means the call blocks and the event loop never resumes. -/

/-- One entry of the `ephs` queue: `sss.Packet = ((idx, share), secret, hash)`. -/
structure SharePacket where
  idx : Nat
  shareBytes : List Nat
  secret : Nat
  hash : List Nat
deriving DecidableEq, Repr

/-- `SHARE_TIME` in tenths of a second. -/
def SHARE_TIME_DS : Nat := 30

/-- `timekeeper.till_next`: delay until the next multiple of `interval`. -/
def tillNext (interval now : Nat) : Nat := interval - now % interval

/-- The node state that `eph_share` reads and writes. -/
structure ClientShareState where
  now : Nat
  ephs : List SharePacket
  last_secret : Nat
  location : Nat
  sched : List Nat
deriving DecidableEq, Repr

/-- `struct.pack("<B32s32s", idx, share, hash)`: one byte, a 32-byte
field and another 32-byte field (`s` pads with zeros and truncates). -/
def packStruct (p : SharePacket) : List Nat :=
  [p.idx % 256] ++ (p.shareBytes.take 32 ++ List.replicate (32 - p.shareBytes.length) 0)
    ++ (p.hash.take 32 ++ List.replicate (32 - p.hash.length) 0)

/-- One `eph_share` tick from `client.py`.  `drop` is the outcome of
`random.random() < SHARE_DROP`.  Result: `none` when the tick never
completes (empty queue: `self.ephs.get()` blocks forever); otherwise the
new state and the datagram broadcast to the current location, if any. -/
def ephShare (st : ClientShareState) (drop : Bool) :
    Option (ClientShareState × Option (List Nat × Nat)) :=
  let st1 : ClientShareState :=
    { st with sched := st.sched ++ [st.now + tillNext SHARE_TIME_DS st.now] }
  match st1.ephs with
  | [] => none
  | p :: rest =>
    if drop then some ({ st1 with ephs := rest }, none)
    else some ({ st1 with ephs := rest, last_secret := p.secret },
               some (packStruct p, st.location))

/-- C9: `client.py` contradicts the claim — when the share queue is empty
at an `eph_share` tick, the broadcaster does not skip the tick: after
rescheduling it calls the blocking `queue.Queue.get()` and never returns,
deadlocking the single-threaded scheduler (modelled as `none`, never the
skipped-tick state the claim describes). -/
theorem C9_eph_share_blocks_on_empty_queue (st : ClientShareState) (drop : Bool)
    (h : st.ephs = []) : ephShare st drop = none := by
  unfold ephShare
  rw [h]

/-- Witness for C9 at a concrete empty-queue state. -/
theorem C9_eph_share_blocks_on_empty_queue_witness :
    ephShare ⟨0, [], 0, 50000, []⟩ false = none :=
  C9_eph_share_blocks_on_empty_queue ⟨0, [], 0, 50000, []⟩ false rfl

/-! ## Share-table cleanup (`client.py`, `share_clean` and `listen`)

Time is modelled in whole seconds.  At every multiple of
`EPHID_TIME = 15` the scheduled `share_clean` runs and deletes the
entries with `rel - first_seen > SHARE_CLEAN_TIME = 30`; in between,
`listen` receptions insert new entries stamped with the current time
(`defaultdict` keeps the stamp of the first reception).  A run is
determined by the list of reception events `(time, hash)`. -/

/-- `EPHID_TIME` in seconds. -/
def EPHID_TIME : Nat := 15

/-- `SHARE_CLEAN_TIME = SHARE_N * SHARE_TIME * 2 = 30` seconds. -/
def SHARE_CLEAN_TIME : Nat := 30

/-- The body of `share_clean` at time `t`: drop every entry strictly
older than `SHARE_CLEAN_TIME`. -/
def shareCleanStep (t : Nat) (tbl : List (Nat × Nat)) : List (Nat × Nat) :=
  tbl.filter (fun e => decide (t - e.2 ≤ SHARE_CLEAN_TIME))

/-- A `listen` reception of hash `h` at time `t`: a new entry is stamped
`first_seen = t`; an existing entry keeps its stamp (only its share list
grows). -/
def recvStep (t h : Nat) (tbl : List (Nat × Nat)) : List (Nat × Nat) :=
  if tbl.any (fun e => e.1 == h) then tbl else tbl ++ [(h, t)]

/-- One second of node time: the `share_clean` tick (at multiples of
`EPHID_TIME`) followed by this second's receptions. -/
def shareTableStep (evs : List (Nat × Nat)) (t : Nat) (tbl : List (Nat × Nat)) :
    List (Nat × Nat) :=
  let tbl1 := if t % EPHID_TIME = 0 then shareCleanStep t tbl else tbl
  (evs.filter (fun e => e.1 == t)).foldl (fun acc e => recvStep t e.2 acc) tbl1

/-- The share table (hash ↦ first_seen) after running the node to time
`T` with reception events `evs`. -/
def runShareTable (evs : List (Nat × Nat)) : Nat → List (Nat × Nat)
  | 0 => shareTableStep evs 0 []
  | T + 1 => shareTableStep evs (T + 1) (runShareTable evs T)

theorem recvStep_fold_mem {t : Nat} {e : Nat × Nat} (evl : List (Nat × Nat))
    (tbl : List (Nat × Nat))
    (h : e ∈ evl.foldl (fun acc ev => recvStep t ev.2 acc) tbl) :
    e ∈ tbl ∨ e.2 = t := by
  induction evl generalizing tbl with
  | nil => exact Or.inl h
  | cons ev rest ih =>
    simp only [List.foldl_cons] at h
    rcases ih (recvStep t ev.2 tbl) h with hmem | ht
    · unfold recvStep at hmem
      by_cases hc : tbl.any (fun e => e.1 == ev.2)
      · rw [if_pos hc] at hmem
        exact Or.inl hmem
      · rw [if_neg hc] at hmem
        rcases List.mem_append.mp hmem with h1 | h1
        · exact Or.inl h1
        · right
          have : e = (ev.2, t) := List.mem_singleton.mp h1
          rw [this]
    · exact Or.inr ht

/-- Invariant of the share table: every entry was stamped in the past,
and survived every `share_clean` tick since, i.e. every cleanup tick `c`
after its stamp satisfied `c - first_seen ≤ SHARE_CLEAN_TIME`. -/
theorem runShareTable_invariant (evs : List (Nat × Nat)) (T : Nat) :
    ∀ e ∈ runShareTable evs T, e.2 ≤ T ∧
      ∀ c, e.2 < c → c ≤ T → c % EPHID_TIME = 0 → c - e.2 ≤ SHARE_CLEAN_TIME := by
  induction T with
  | zero =>
    intro e he
    unfold runShareTable shareTableStep at he
    rcases recvStep_fold_mem _ _ he with hmem | ht
    · by_cases hc : 0 % EPHID_TIME = 0
      · rw [if_pos hc] at hmem
        unfold shareCleanStep at hmem
        exact absurd (List.mem_filter.mp hmem).1 (by simp)
      · rw [if_neg hc] at hmem
        exact absurd hmem (by simp)
    · exact ⟨Nat.le_of_eq ht, fun c hc1 hc2 _ => by omega⟩
  | succ T ih =>
    intro e he
    unfold runShareTable shareTableStep at he
    rcases recvStep_fold_mem _ _ he with hmem | ht
    · by_cases hc : (T + 1) % EPHID_TIME = 0
      · rw [if_pos hc] at hmem
        unfold shareCleanStep at hmem
        obtain ⟨hold, hsur⟩ := List.mem_filter.mp hmem
        obtain ⟨hle, hall⟩ := ih e hold
        have hsur2 : T + 1 - e.2 ≤ SHARE_CLEAN_TIME := of_decide_eq_true hsur
        refine ⟨by omega, fun c hc1 hc2 hc3 => ?_⟩
        rcases Nat.lt_or_ge c (T + 1) with hlt | hge
        · exact hall c hc1 (by omega) hc3
        · have : c = T + 1 := by omega
          omega
      · rw [if_neg hc] at hmem
        obtain ⟨hle, hall⟩ := ih e hmem
        refine ⟨by omega, fun c hc1 hc2 hc3 => ?_⟩
        rcases Nat.lt_or_ge c (T + 1) with hlt | hge
        · exact hall c hc1 (by omega) hc3
        · have : c = T + 1 := by omega
          rw [this] at hc3
          exact absurd hc3 hc
    · exact ⟨Nat.le_of_eq ht, fun c hc1 hc2 _ => by omega⟩

/-- C8 as stated is false: cleanup runs only every `EPHID_TIME = 15`
seconds and uses a strict `> 30` comparison, so an entry first seen at
`t = 16` is still present at `t = 47` with age `31 > SHARE_CLEAN_TIME`. -/
theorem C8_counterexample :
    ¬ (∀ (evs : List (Nat × Nat)) (T h t0 : Nat),
        (h, t0) ∈ runShareTable evs T → T - t0 ≤ SHARE_CLEAN_TIME) := by
  intro hclaim
  have := hclaim [(16, 0)] 47 0 16 (by decide)
  exact absurd this (by decide)

/-- C8 amended: a share-table entry can outlive `SHARE_CLEAN_TIME = 30`
by up to one cleanup period, but no more: at every reachable state each
entry is younger than `SHARE_CLEAN_TIME + EPHID_TIME = 45` seconds,
because the first `share_clean` tick at which its age exceeds 30 comes
within 45 seconds of `first_seen` and discards it. -/
theorem C8_share_age_bounded (evs : List (Nat × Nat)) (T h t0 : Nat)
    (hmem : (h, t0) ∈ runShareTable evs T) :
    T - t0 < SHARE_CLEAN_TIME + EPHID_TIME := by
  obtain ⟨hle, hall⟩ := runShareTable_invariant evs T (h, t0) hmem
  simp only at hle hall
  by_contra hcon
  have hT : t0 + 45 ≤ T := by
    unfold SHARE_CLEAN_TIME EPHID_TIME at hcon
    omega
  set c := ((t0 + 45) / 15) * 15 with hc
  have hcmod : c % EPHID_TIME = 0 := by
    unfold EPHID_TIME
    omega
  have hlo : t0 + 31 ≤ c := by omega
  have hhi : c ≤ t0 + 45 := by omega
  have := hall c (by omega) (by omega) hcmod
  unfold SHARE_CLEAN_TIME at this
  omega

/-- Witness for the amended C8 at the concrete run of the counterexample. -/
theorem C8_share_age_bounded_witness :
    (47 : Nat) - 16 < SHARE_CLEAN_TIME + EPHID_TIME :=
  C8_share_age_bounded [(16, 0)] 47 0 16 (by decide)

/-! ## Shamir secret sharing (`sss.py`)

`sss.py` wraps the 16-byte pycryptodome primitive block-wise.  The
primitive itself is not part of the repository; per §4.3 of the
specification it "splits and reconstructs exactly 16-byte secrets using
polynomial interpolation over GF(2^128)".  It is therefore modelled over
an arbitrary field `F` with an embedding `emb` of the share indices into
the field (for GF(2^128) the indices `1..16` embed injectively as bit
polynomials): a block is split into evaluations of a polynomial whose
constant term is the block, and combined by Lagrange interpolation at
zero.  The block-wise wrappers `sssSplit`/`sssCombine` below translate
the `split`/`combine` functions of `sss.py` over this block model. -/

section Shamir


variable {F : Type} [Field F]

/-- Modelled from the spec: the share value of one 16-byte block is the
evaluation, at the index point, of the polynomial whose coefficients are
the `k - 1` random coefficients followed by the block (Horner form, as in
pycryptodome's `make_share`: `share = idx * share + coeff`). -/
def shamirShare (coeffs : List F) (x : F) : F :=
  coeffs.foldl (fun acc c => x * acc + c) 0

/-- Modelled from the spec: Lagrange interpolation at zero,
`∑_j y_j ∏_{m≠j} (0 - x_m) (x_j - x_m)⁻¹`, the reconstruction rule of
the 16-byte primitive (pycryptodome's `combine` in characteristic 2,
where `x_j + x_m = x_j - x_m` and `x_m = 0 - x_m`). -/
def lagrangeZero (pts : List (F × F)) : F :=
  ∑ j : Fin pts.length, (pts.get j).2 *
    ∏ m ∈ Finset.univ.erase j, (0 - (pts.get m).1) * ((pts.get j).1 - (pts.get m).1)⁻¹

/-- Modelled from the spec: one-block `Shamir.combine` on index/value
pairs, with the indices embedded into the field by `emb`. -/
def shamirCombineBlock (emb : Nat → F) (shares : List (Nat × F)) : F :=
  lagrangeZero (shares.map (fun s => (emb s.1, s.2)))

/-- The `split` wrapper of `sss.py` over the block model: per 16-byte
block, share `j ∈ 1..n` receives that block's share value at index `j`;
the per-block payloads are concatenated (here: listed) in block order.
`rand` holds the `k - 1` random coefficients the primitive draws for each
block, so the `k` of `split(k, n, secret)` is `rand`-block length `+ 1`. -/
def sssSplit (emb : Nat → F) (n : Nat) (rand : List (List F)) (secret : List F) :
    List (Nat × List F) :=
  (List.range n).map (fun i =>
    (i + 1, (List.zip rand secret).map
      (fun rs => shamirShare (rs.1 ++ [rs.2]) (emb (i + 1)))))

/-- The `combine` wrapper of `sss.py` over the block model: all shares
must have the same block count (`ValueError` otherwise, and an empty
share list indexes out of bounds — both are `none`); block `b` of the
result combines the `b`-th payload block of every supplied share. -/
def sssCombine (emb : Nat → F) (shares : List (Nat × List F)) : Option (List F) :=
  match shares with
  | [] => none
  | s0 :: _ =>
    if shares.all (fun s => s.2.length == s0.2.length) then
      some ((List.range s0.2.length).map
        (fun b => shamirCombineBlock emb (shares.map (fun s => (s.1, s.2.getD b 0)))))
    else none

theorem hornerPoly_eval (cs : List F) (x : F) (acc : Polynomial F) :
    (cs.foldl (fun a c => a * Polynomial.X + Polynomial.C c) acc).eval x =
      cs.foldl (fun a c => x * a + c) (acc.eval x) := by
  induction cs generalizing acc with
  | nil => rfl
  | cons c rest ih =>
    simp only [List.foldl_cons]
    rw [ih]
    simp [mul_comm]

theorem hornerPoly_degree (cs : List F) :
    (cs.foldl (fun a c => a * Polynomial.X + Polynomial.C c)
      (0 : Polynomial F)).degree < (cs.length : WithBot Nat) := by
  induction cs using List.reverseRecOn with
  | nil =>
    simp only [List.foldl_nil, Polynomial.degree_zero, List.length_nil,
      Nat.cast_zero]
    exact WithBot.bot_lt_coe 0
  | append_singleton cs c ih =>
    rw [List.foldl_append, List.foldl_cons, List.foldl_nil]
    apply lt_of_le_of_lt (Polynomial.degree_add_le _ _)
    rw [max_lt_iff]
    have hlen : ((cs ++ [c]).length : WithBot Nat) = (cs.length : WithBot Nat) + 1 := by
      rw [List.length_append]
      push_cast
      rfl
    constructor
    · apply lt_of_le_of_lt (Polynomial.degree_mul_le _ _)
      rw [Polynomial.degree_X, hlen]
      exact WithBot.add_lt_add_right (by simp) ih
    · apply lt_of_le_of_lt (Polynomial.degree_C_le)
      rw [hlen]
      exact_mod_cast Nat.succ_pos cs.length

theorem hornerPoly_coeff_zero (cs : List F) (c : F) :
    ((cs ++ [c]).foldl (fun a c => a * Polynomial.X + Polynomial.C c)
      (0 : Polynomial F)).coeff 0 = c := by
  rw [List.foldl_append, List.foldl_cons, List.foldl_nil]
  rw [Polynomial.coeff_add, Polynomial.coeff_mul_X_zero, Polynomial.coeff_C_zero]
  exact zero_add c

/-- Lagrange interpolation at zero recovers the constant coefficient of
any polynomial of degree below the number of nodes, given distinct nodes
and matching values. -/
theorem lagrangeZero_eq_coeff_zero (pts : List (F × F)) (P : Polynomial F)
    (hnd : (pts.map Prod.fst).Nodup)
    (hdeg : P.degree < (pts.length : WithBot Nat))
    (hval : ∀ pt ∈ pts, pt.2 = P.eval pt.1) :
    lagrangeZero pts = P.coeff 0 := by
  classical
  set v : Fin pts.length → F := fun j => (pts.get j).1 with hv
  have hlm : pts.length = (pts.map Prod.fst).length := (List.length_map _ _).symm
  have hinj : Function.Injective v := by
    intro a b hab
    have hget : ∀ j : Fin pts.length,
        (pts.map Prod.fst).get (Fin.cast hlm j) = v j := by
      intro j
      simp [hv, List.get_map]
    have : (pts.map Prod.fst).get (Fin.cast hlm a) =
        (pts.map Prod.fst).get (Fin.cast hlm b) := by
      rw [hget, hget]
      exact hab
    have h2 := (List.nodup_iff_injective_get.mp hnd) this
    have h3 := congrArg Fin.val h2
    simp only [Fin.coe_cast] at h3
    exact Fin.ext h3
  have hInjOn : Set.InjOn v (Finset.univ : Finset (Fin pts.length)) :=
    hinj.injOn
  have hcard : P.degree < ((Finset.univ : Finset (Fin pts.length)).card : WithBot Nat) := by
    rwa [Finset.card_univ, Fintype.card_fin]
  have hp : P = Lagrange.interpolate Finset.univ v (fun j => P.eval (v j)) :=
    Lagrange.eq_interpolate hInjOn hcard
  rw [Polynomial.coeff_zero_eq_eval_zero]
  have hstep : lagrangeZero pts =
      (Lagrange.interpolate Finset.univ v (fun j => P.eval (v j))).eval 0 := by
    rw [Lagrange.interpolate_apply, Polynomial.eval_finset_sum]
    unfold lagrangeZero
    apply Finset.sum_congr rfl
    intro j _
    rw [hval (pts.get j) (List.get_mem pts j.1 j.2)]
    rw [Polynomial.eval_mul, Polynomial.eval_C]
    congr 1
    rw [Lagrange.basis, Polynomial.eval_prod]
    apply Finset.prod_congr rfl
    intro m _
    unfold Lagrange.basisDivisor
    simp only [Polynomial.eval_mul, Polynomial.eval_sub, Polynomial.eval_C,
      Polynomial.eval_X]
    ring
  rw [hstep, ← hp]

/-- One-block reconstruction: combining the share values of a polynomial
with constant term `c` at distinctly embedded indices recovers `c`. -/
theorem shamirCombineBlock_shares (emb : Nat → F) (idxs : List Nat)
    (cs : List F) (c : F) (hnd : (idxs.map emb).Nodup)
    (hk : cs.length + 1 = idxs.length) :
    shamirCombineBlock emb
      (idxs.map (fun i => (i, shamirShare (cs ++ [c]) (emb i)))) = c := by
  unfold shamirCombineBlock
  rw [List.map_map]
  have hres := lagrangeZero_eq_coeff_zero
    (idxs.map ((fun s : Nat × F => (emb s.1, s.2)) ∘
      (fun i => (i, shamirShare (cs ++ [c]) (emb i)))))
    ((cs ++ [c]).foldl (fun a d => a * Polynomial.X + Polynomial.C d) 0)
    ?_ ?_ ?_
  · rw [hres, hornerPoly_coeff_zero]
  · rw [List.map_map]
    have : (Prod.fst ∘ ((fun s : Nat × F => (emb s.1, s.2)) ∘
        (fun i => (i, shamirShare (cs ++ [c]) (emb i))))) = emb := rfl
    rw [this]
    exact hnd
  · rw [List.length_map]
    have := hornerPoly_degree (cs ++ [c])
    rw [List.length_append, List.length_singleton] at this
    rw [← hk]
    exact this
  · intro pt hpt
    obtain ⟨i, _, hi⟩ := List.mem_map.mp hpt
    rw [← hi]
    simp only [Function.comp_apply]
    rw [hornerPoly_eval]
    simp [shamirShare]

theorem range_map_getD {α : Type} (l : List α) (d : α) :
    (List.range l.length).map (fun i => l.getD i d) = l := by
  induction l with
  | nil => rfl
  | cons a t ih =>
    rw [List.length_cons, List.range_succ_eq_map]
    simp only [List.map_cons, List.map_map]
    have hcomp : ((fun i => (a :: t).getD i d) ∘ Nat.succ) = fun i => t.getD i d := rfl
    rw [hcomp, ih]
    rfl

theorem subperm_map_fst_nodup {α β : Type} {S L : List (α × β)} (h : S.Subperm L)
    (hnd : (L.map Prod.fst).Nodup) : (S.map Prod.fst).Nodup := by
  obtain ⟨l, hperm, hsub⟩ := h
  have h1 : (l.map Prod.fst).Nodup := (hsub.map Prod.fst).nodup hnd
  exact ((hperm.map Prod.fst).nodup_iff).mp h1

theorem sssSplit_map_fst_nodup (emb : Nat → F) (n : Nat) (rand : List (List F))
    (secret : List F) : ((sssSplit emb n rand secret).map Prod.fst).Nodup := by
  unfold sssSplit
  rw [List.map_map]
  have hcomp : (Prod.fst ∘ (fun i => ((i + 1 : Nat),
      (List.zip rand secret).map
        (fun rs => shamirShare (rs.1 ++ [rs.2]) (emb (i + 1)))))) =
      fun i => i + 1 := rfl
  rw [hcomp]
  exact (List.nodup_range _).map (add_left_injective 1)

/-- Any `k`-subset (in any order) of a `(k, n)` block-wise split
reconstructs the secret, for any block count. -/
theorem sssCombine_subperm_split (emb : Nat → F)
    (hembInj : ∀ i j, 1 ≤ i → i ≤ 16 → 1 ≤ j → j ≤ 16 → emb i = emb j → i = j)
    (k n : Nat) (h2k : 2 ≤ k) (hkn : k ≤ n) (hn16 : n ≤ 16)
    (secret : List F)
    (rand : List (List F)) (hrlen : rand.length = secret.length)
    (hrk : ∀ r ∈ rand, r.length = k - 1)
    (S : List (Nat × List F)) (hsub : S.Subperm (sssSplit emb n rand secret))
    (hSk : S.length = k) :
    sssCombine emb S = some secret := by
  have hmem : ∀ s ∈ S, ∃ j, 1 ≤ j ∧ j ≤ n ∧
      s = (j, (List.zip rand secret).map
        (fun rs => shamirShare (rs.1 ++ [rs.2]) (emb j))) := by
    intro s hs
    have hsp := hsub.subset hs
    unfold sssSplit at hsp
    obtain ⟨i, hi, hieq⟩ := List.mem_map.mp hsp
    have hin : i < n := List.mem_range.mp hi
    exact ⟨i + 1, by omega, by omega, hieq.symm⟩
  have hzl : (List.zip rand secret).length = secret.length := by
    rw [List.length_zip, hrlen, Nat.min_self]
  have hplen : ∀ s ∈ S, s.2.length = secret.length := by
    intro s hs
    obtain ⟨j, _, _, hj⟩ := hmem s hs
    rw [hj]
    simp only [List.length_map]
    exact hzl
  have hndS : (S.map Prod.fst).Nodup :=
    subperm_map_fst_nodup hsub (sssSplit_map_fst_nodup emb n rand secret)
  have hfst_bounds : ∀ x ∈ S.map Prod.fst, 1 ≤ x ∧ x ≤ 16 := by
    intro x hx
    obtain ⟨s, hs, hxe⟩ := List.mem_map.mp hx
    obtain ⟨j, hj1, hjn, hj⟩ := hmem s hs
    have : s.1 = j := by rw [hj]
    omega
  have hndemb : ((S.map Prod.fst).map emb).Nodup := by
    apply hndS.map_on
    intro x hx y hy hxy
    obtain ⟨hx1, hx16⟩ := hfst_bounds x hx
    obtain ⟨hy1, hy16⟩ := hfst_bounds y hy
    exact hembInj x y hx1 hx16 hy1 hy16 hxy
  rcases S with _ | ⟨s0, rest⟩
  · simp at hSk
    omega
  have h0len : s0.2.length = secret.length := hplen s0 (by simp)
  have hall : (s0 :: rest).all (fun s => s.2.length == s0.2.length) = true := by
    rw [List.all_eq_true]
    intro s hs
    exact beq_iff_eq.mpr ((hplen s hs).trans h0len.symm)
  have hblock : ∀ b ∈ List.range s0.2.length,
      shamirCombineBlock emb ((s0 :: rest).map (fun s => (s.1, s.2.getD b 0))) =
        secret.getD b 0 := by
    intro b hb
    have hbs : b < secret.length := by
      rw [← h0len]
      exact List.mem_range.mp hb
    have hbr : b < rand.length := by omega
    have hbz : b < (List.zip rand secret).length := by omega
    have hmapeq : (s0 :: rest).map (fun s => (s.1, s.2.getD b 0)) =
        ((s0 :: rest).map Prod.fst).map
          (fun i => (i, shamirShare (rand.getD b [] ++ [secret.getD b 0]) (emb i))) := by
      rw [List.map_map]
      apply List.map_congr_left
      intro s hs
      obtain ⟨j, _, _, hj⟩ := hmem s hs
      rw [hj]
      simp only [Function.comp_apply]
      congr 1
      rw [List.getD_eq_getElem _ _ (by simpa [List.length_map] using hbz),
        List.getElem_map]
      rw [List.getElem_zip]
      rw [List.getD_eq_getElem _ _ hbr, List.getD_eq_getElem _ _ hbs]
    rw [hmapeq]
    apply shamirCombineBlock_shares emb _ _ _ hndemb
    have hblq : rand.getD b [] ∈ rand := by
      rw [List.getD_eq_getElem _ _ hbr]
      exact List.getElem_mem _
    rw [hrk _ hblq, List.length_map]
    simp only [List.length_cons] at hSk ⊢
    omega
  simp only [sssCombine, hall, if_true]
  congr 1
  calc (List.range s0.2.length).map
        (fun b => shamirCombineBlock emb
          ((s0 :: rest).map (fun s => (s.1, s.2.getD b 0)))) =
      (List.range s0.2.length).map (fun b => secret.getD b 0) :=
        List.map_congr_left hblock
    _ = secret := by rw [h0len]; exact range_map_getD secret 0

/-! ## Share listener reconstruction (`client.py`, `listen`)

The reconstruction path of `listen`: drop own hashes, append the received
`(idx, share)` to the hash's entry, and when the entry holds at least
`SHARE_K = 3` shares call `sss.verify` on the WHOLE collected list.  The
BLAKE2b-over-serialized-public hash and the Diffie-Hellman derivation
`sss.calc_shared` act on external representations of the abstract field,
so they enter as parameters `hashFn` and `dh`.  The outer `Option` is
`none` when the Python code raises (a `combine` shape error). -/

/-- First value stored under key `h` in an association list. -/
def tblGet {α : Type} (tbl : List (List Nat × α)) (h : List Nat) : Option α :=
  (tbl.find? (fun e => e.1 == h)).map Prod.snd

/-- Set key `h` to `v` (in place, else append). -/
def tblSet {α : Type} (tbl : List (List Nat × α)) (h : List Nat) (v : α) :
    List (List Nat × α) :=
  if tbl.any (fun e => e.1 == h) then
    tbl.map (fun e => if e.1 == h then (h, v) else e)
  else tbl ++ [(h, v)]

/-- The listener state touched by the reconstruction path. -/
structure ListenState (F : Type) where
  shares : List (List Nat × List (Nat × List F))
  own_shares : List (List Nat)
  last_secret : Nat
  dbf : List Nat

/-- One received 65-byte frame `(idx, share, h)` processed by `listen`. -/
def listenStep (emb : Nat → F) (hashFn : List F → List Nat)
    (dh : List F → Nat → Nat) (st : ListenState F) (idx : Nat)
    (share : List F) (h : List Nat) : Option (ListenState F) :=
  if h ∈ st.own_shares then some st
  else
    let entries := (tblGet st.shares h).getD [] ++ [(idx, share)]
    if 3 ≤ entries.length then
      match sssCombine emb entries with
      | none => none
      | some public =>
        if hashFn public = h then
          some { st with shares := tblSet st.shares h [],
                         dbf := st.dbf ++ [dh public st.last_secret] }
        else some { st with shares := tblSet st.shares h entries }
    else some { st with shares := tblSet st.shares h entries }

/-- The share list handed to `sss.verify` when a reception triggers a
reconstruction attempt: all entries collected for the hash, the received
one included. -/
def listenVerifyInput (st : ListenState F) (idx : Nat) (share : List F)
    (h : List Nat) : Option (List (Nat × List F)) :=
  if h ∈ st.own_shares then none
  else
    let entries := (tblGet st.shares h).getD [] ++ [(idx, share)]
    if 3 ≤ entries.length then some entries else none

/-- C2: block-wise Shamir round-trip.  For all `(k, n)` with
`2 ≤ k ≤ n ≤ 16`, every two-block (32-byte) secret, every choice of the
per-block random coefficients, and every `k`-element subset `S` of
`split(k, n, secret)` (in any order), `combine(S)` returns exactly the
secret.  The field `F` and the injective index embedding `emb` model
GF(2^128) per §4.3 of the specification. -/
theorem C2_blockwise_shamir_roundtrip (emb : Nat → F)
    (hembInj : ∀ i j, 1 ≤ i → i ≤ 16 → 1 ≤ j → j ≤ 16 → emb i = emb j → i = j)
    (k n : Nat) (h2k : 2 ≤ k) (hkn : k ≤ n) (hn16 : n ≤ 16)
    (secret : List F) (hsec : secret.length = 2)
    (rand : List (List F)) (hrlen : rand.length = secret.length)
    (hrk : ∀ r ∈ rand, r.length = k - 1)
    (S : List (Nat × List F)) (hsub : S.Subperm (sssSplit emb n rand secret))
    (hSk : S.length = k) :
    sssCombine emb S = some secret :=
  sssCombine_subperm_split emb hembInj k n h2k hkn hn16 secret rand hrlen hrk
    S hsub hSk

end Shamir

instance fact_prime_17 : Fact (Nat.Prime 17) := ⟨by norm_num⟩

/-- Index embedding into GF(17), injective on the share indices `1..16`. -/
theorem zmod17_cast_inj : ∀ i j : Nat, 1 ≤ i → i ≤ 16 → 1 ≤ j → j ≤ 16 →
    ((i : ZMod 17) = (j : ZMod 17)) → i = j := by
  intro i j hi1 hi16 hj1 hj16 h
  have hv := congrArg ZMod.val h
  rwa [ZMod.val_cast_of_lt (by omega), ZMod.val_cast_of_lt (by omega)] at hv

/-- Witness for C2 over GF(17) with `k = n = 2` and secret `[4, 5]`. -/
theorem C2_blockwise_shamir_roundtrip_witness :
    sssCombine (fun i => (i : ZMod 17))
      (sssSplit (fun i => (i : ZMod 17)) 2 [[2], [3]] [4, 5]) = some [4, 5] :=
  C2_blockwise_shamir_roundtrip (fun i => (i : ZMod 17)) zmod17_cast_inj
    2 2 (le_refl 2) (le_refl 2) (by norm_num) [4, 5] rfl [[2], [3]] rfl
    (by decide) _ (List.Subperm.refl _) rfl

section ListenClaims

variable {F : Type} [Field F]

/-- C5 amended: when a reception brings a ShareTable entry to at least
`SHARE_K = 3` shares, `listen` hands ALL collected shares (not a chosen
3-subset) to `sss.verify`: the candidate is the block-wise combine of the
whole entry list, it is hashed and compared to the broadcast hash, and on
a match the entry is cleared and the derived EncID recorded, otherwise
the shares are retained. -/
theorem C5_verify_uses_all_collected_shares (emb : Nat → F)
    (hashFn : List F → List Nat) (dh : List F → Nat → Nat)
    (st : ListenState F) (idx : Nat) (share : List F) (h : List Nat)
    (entries : List (Nat × List F))
    (hinput : listenVerifyInput st idx share h = some entries) :
    listenStep emb hashFn dh st idx share h =
      match sssCombine emb entries with
      | none => none
      | some public =>
        if hashFn public = h then
          some { st with shares := tblSet st.shares h [],
                         dbf := st.dbf ++ [dh public st.last_secret] }
        else some { st with shares := tblSet st.shares h entries } := by
  unfold listenVerifyInput at hinput
  by_cases hown : h ∈ st.own_shares
  · rw [if_pos hown] at hinput
    exact absurd hinput (by simp)
  · rw [if_neg hown] at hinput
    by_cases hlen : 3 ≤ ((tblGet st.shares h).getD [] ++ [(idx, share)]).length
    · rw [if_pos hlen] at hinput
      have hent : entries = (tblGet st.shares h).getD [] ++ [(idx, share)] :=
        (Option.some_injective _ hinput).symm
      unfold listenStep
      rw [if_neg hown, if_pos hlen, ← hent]
    · rw [if_neg hlen] at hinput
      exact absurd hinput (by simp)

/-- Witness for the amended C5: a third share arriving for a hash with
two collected shares triggers an attempt on all three. -/
theorem C5_verify_uses_all_collected_shares_witness :
    listenStep (fun i => (i : ZMod 17)) (fun _ => []) (fun _ _ => 0)
      ⟨[([0], [(1, [6, 6]), (2, [7, 7])])], [], 0, []⟩ 3 [9, 9] [0] =
      match sssCombine (fun i => (i : ZMod 17))
          [(1, [6, 6]), (2, [7, 7]), (3, [9, 9])] with
      | none => none
      | some public =>
        if (fun _ : List (ZMod 17) => ([] : List Nat)) public = [0] then
          some { shares := tblSet [([0], [(1, [6, 6]), (2, [7, 7])])] [0] [],
                 own_shares := [], last_secret := 0,
                 dbf := [] ++ [(fun _ : List (ZMod 17) => fun _ : Nat => 0) public 0] }
        else
          some { shares := tblSet [([0], [(1, [6, 6]), (2, [7, 7])])] [0]
                   [(1, [6, 6]), (2, [7, 7]), (3, [9, 9])],
                 own_shares := [], last_secret := 0, dbf := [] } :=
  C5_verify_uses_all_collected_shares (fun i => (i : ZMod 17)) (fun _ => [])
    (fun _ _ => 0) ⟨[([0], [(1, [6, 6]), (2, [7, 7])])], [], 0, []⟩ 3 [9, 9] [0]
    [(1, [6, 6]), (2, [7, 7]), (3, [9, 9])] (by decide)

end ListenClaims

/-- C5 as stated is false: the code combines ALL collected shares, and
with four collected shares (three genuine on a degree-2 polynomial with
constant blocks `6`, plus one corrupt share lying on a cubic through the
other three with constant term `0`) the candidate is the cubic's constant
`[0, 0]`, while the 3-subset of genuine shares combines to `[6, 6]`. -/
theorem C5_counterexample :
    ¬ (∀ (G : Type) [Field G] (emb : Nat → G) (st : ListenState G)
        (idx : Nat) (share : List G) (h : List Nat)
        (entries S : List (Nat × List G)),
        listenVerifyInput st idx share h = some entries →
        S.Subperm entries → S.length = 3 →
        sssCombine emb S = sssCombine emb entries) := by
  intro hclaim
  have hcl := hclaim (ZMod 17) (fun i => (i : ZMod 17))
    ⟨[([0], [(1, [6, 6]), (2, [7, 7]), (3, [9, 9])])], [], 0, []⟩
    4 [1, 1] [0]
    [(1, [6, 6]), (2, [7, 7]), (3, [9, 9]), (4, [1, 1])]
    [(1, [6, 6]), (2, [7, 7]), (3, [9, 9])]
    (by decide)
    ((List.sublist_append_left [(1, [6, 6]), (2, [7, 7]), (3, [9, 9])]
      [(4, [1, 1])]).subperm)
    rfl
  have hsplit : sssSplit (fun i => (i : ZMod 17)) 3 [[9, 8], [9, 8]] [6, 6] =
      [(1, [(6 : ZMod 17), 6]), (2, [7, 7]), (3, [9, 9])] := by decide
  have h1 : sssCombine (fun i => (i : ZMod 17))
      [(1, [(6 : ZMod 17), 6]), (2, [7, 7]), (3, [9, 9])] = some [6, 6] :=
    sssCombine_subperm_split (fun i => (i : ZMod 17)) zmod17_cast_inj 3 3
      (by norm_num) (le_refl 3) (by norm_num) [6, 6] [[9, 8], [9, 8]] rfl
      (by decide) _ (by rw [hsplit]) rfl
  have hmap : ([1, 2, 3, 4].map (fun i => (i,
      shamirShare ([1, 3, 2] ++ [(0 : ZMod 17)]) ((i : Nat) : ZMod 17)))) =
      [(1, 6), (2, 7), (3, 9), (4, 1)] := by decide
  have hb : shamirCombineBlock (fun i => (i : ZMod 17))
      [(1, (6 : ZMod 17)), (2, 7), (3, 9), (4, 1)] = 0 := by
    have hs := shamirCombineBlock_shares (fun i => (i : ZMod 17)) [1, 2, 3, 4]
      [1, 3, 2] 0 (by decide) rfl
    rwa [hmap] at hs
  have h2 : sssCombine (fun i => (i : ZMod 17))
      [(1, [(6 : ZMod 17), 6]), (2, [7, 7]), (3, [9, 9]), (4, [1, 1])] =
      some [0, 0] := by
    have hform : sssCombine (fun i => (i : ZMod 17))
        [(1, [(6 : ZMod 17), 6]), (2, [7, 7]), (3, [9, 9]), (4, [1, 1])] =
        some [shamirCombineBlock (fun i => (i : ZMod 17))
                [(1, (6 : ZMod 17)), (2, 7), (3, 9), (4, 1)],
              shamirCombineBlock (fun i => (i : ZMod 17))
                [(1, (6 : ZMod 17)), (2, 7), (3, 9), (4, 1)]] := rfl
    rw [hform, hb]
  rw [h1, h2] at hcl
  exact absurd hcl (by decide)

/-! ## Ed25519 (`Ed25519.py`)

`Ed25519.py` works with Python `int`s that may be negative (`d` is a
negative integer) and reduces with Python `%`, whose result has the sign
of the (positive) modulus -- exactly `Int.emod`.  Python's three-argument
`pow` first reduces a negative base into `[0, m)`. -/

/-- `powModAux` stays below a positive modulus. -/
theorem powModAux_lt (fuel : Nat) :
    ∀ a e m : Nat, 0 < m → powModAux fuel a e m < m := by
  induction fuel with
  | zero =>
    intro a e m hm
    simpa [powModAux] using Nat.mod_lt 1 hm
  | succ f ih =>
    intro a e m hm
    by_cases h0 : e = 0
    · simpa [powModAux, h0] using Nat.mod_lt 1 hm
    · simp only [powModAux, h0, if_false]
      by_cases h1 : e % 2 = 1
      · simpa [h1] using Nat.mod_lt (a * powModAux f (a * a % m) (e / 2) m) hm
      · simpa [h1] using ih (a * a % m) (e / 2) m hm

theorem powMod_lt (a e m : Nat) (hm : 0 < m) : powMod a e m < m :=
  powModAux_lt 300 a e m hm

/-- Python `pow(b, e, m)` for an `int` base that may be negative: the
base is first reduced into `[0, m)` by Python `%`. -/
def powModZ (b : Int) (e m : Nat) : Int :=
  ((powMod (b % (m : Int)).toNat e m : Nat) : Int)

theorem intCast_emod_zmod (x : Int) (n : Nat) :
    ((x % (n : Int) : Int) : ZMod n) = (x : ZMod n) := by
  rw [ZMod.intCast_eq_intCast_iff']
  rw [Int.emod_emod_of_dvd _ dvd_rfl]

theorem zmod_natCast_pow (a e p : Nat) (hp : 0 < p) (he : e < 2 ^ 300) :
    ((powMod a e p : Nat) : ZMod p) = (a : ZMod p) ^ e := by
  rw [powMod_spec a e p hp he, ZMod.natCast_mod, Nat.cast_pow]

theorem zmod_intCast_powModZ (b : Int) (e m : Nat) (hm : 0 < m) (he : e < 2 ^ 300) :
    ((powModZ b e m : Int) : ZMod m) = (b : ZMod m) ^ e := by
  unfold powModZ
  rw [Int.cast_natCast]
  rw [zmod_natCast_pow _ _ _ hm he]
  congr 1
  have hmz : ((m : Int)) ≠ 0 := by
    have : (0 : Int) < (m : Int) := by exact_mod_cast hm
    exact this.ne'
  have h1 : (((b % (m : Int)).toNat : Nat) : Int) = b % (m : Int) :=
    Int.toNat_of_nonneg (Int.emod_nonneg b hmz)
  calc ((b % (m : Int)).toNat : ZMod m)
      = ((((b % (m : Int)).toNat : Nat) : Int) : ZMod m) := by push_cast; ring
    _ = ((b % (m : Int) : Int) : ZMod m) := by rw [h1]
    _ = (b : ZMod m) := intCast_emod_zmod b m

theorem zmod_pow_eq_one (a e p : Nat) (hp : 0 < p) (he : e < 2 ^ 300)
    (h : powMod a e p = 1 % p) : (a : ZMod p) ^ e = 1 := by
  rw [← zmod_natCast_pow a e p hp he, h, ZMod.natCast_mod, Nat.cast_one]

theorem zmod_pow_ne_one (a e p : Nat) (hp : 0 < p) (he : e < 2 ^ 300)
    (h : powMod a e p ≠ 1 % p) : (a : ZMod p) ^ e ≠ 1 := by
  rw [← zmod_natCast_pow a e p hp he]
  intro hcontra
  apply h
  have h1 : ((powMod a e p : Nat) : ZMod p) = ((1 : Nat) : ZMod p) := by
    rw [hcontra, Nat.cast_one]
  rw [ZMod.natCast_eq_natCast_iff'] at h1
  rwa [Nat.mod_eq_of_lt (powMod_lt a e p hp)] at h1

/-- A prime `r` dividing a prime power `s ^ e` equals `s`. -/
theorem prime_eq_of_dvd_pow {r s : Nat} (e : Nat) (hr : Nat.Prime r)
    (hs : Nat.Prime s) (h : r ∣ s ^ e) : r = s :=
  (Nat.prime_dvd_prime_iff_eq hr hs).mp (hr.dvd_of_dvd_pow h)

/-- Bit-level helper for `compress`: or-ing a bit below 2 into an even
number is addition. -/
theorem two_mul_lor_eq_add (y b : Nat) (hb : b < 2) : 2 * y ||| b = 2 * y + b := by
  apply Nat.eq_of_testBit_eq
  intro i
  cases i with
  | zero =>
    rw [Nat.testBit_or, Nat.testBit_zero, Nat.testBit_zero, Nat.testBit_zero]
    have h1 : 2 * y % 2 = 0 := by omega
    have h2 : (2 * y + b) % 2 = b % 2 := by omega
    simp [h1, h2]
  | succ j =>
    rw [Nat.testBit_or, Nat.testBit_succ, Nat.testBit_succ, Nat.testBit_succ]
    have h1 : 2 * y / 2 = y := by omega
    have h2 : (2 * y + b) / 2 = y := by omega
    have h3 : b / 2 = 0 := by omega
    rw [h1, h2, h3]
    simp [Nat.zero_testBit]

namespace Ed25519

/-- `q = 2**255 - 19` from `Ed25519.py`, as a natural number. -/
def qn : Nat := 2 ^ 255 - 19

theorem qn_pos : 0 < qn := by decide

/-- The modulus as a Python `int` (`q` in `Ed25519.py`). -/
def q : Int := (qn : Int)

/-- `inv(x) = pow(x, q - 2, q)`. -/
def inv (x : Int) : Int := powModZ x (qn - 2) qn

/-- `d = -121665 * inv(121666)`: a negative Python `int`, not reduced
modulo `q`. -/
def d : Int := -121665 * inv 121666

/-- `I = pow(2, (q - 1) // 4, q)`. -/
def I : Int := powModZ 2 ((qn - 1) / 4) qn

/-- The value `xx = (y*y - 1) * inv(d*y*y + 1)` computed inside
`xrecover`. -/
def xxOf (y : Int) : Int := (y * y - 1) * inv (d * y * y + 1)

/-- `xrecover(y)` from `Ed25519.py`.  Python `x % 2` on an `int` is
`Int.emod x 2`. -/
def xrecover (y : Int) : Int :=
  let xx : Int := xxOf y
  let x : Int := powModZ xx ((qn + 3) / 8) qn
  let x : Int := if (x * x - xx) % q ≠ 0 then x * I % q else x
  if x % 2 ≠ 0 then q - x else x

/-- `compress(x, y) = y << 1 | (x & 1)`. -/
def compress (x y : Nat) : Nat := y <<< 1 ||| (x &&& 1)

/-- `compress_key(point)`: 32 little-endian bytes of the compressed
point (`int.to_bytes` raises `OverflowError` when the value does not
fit). -/
def compress_key (x y : Nat) : Option (List Nat) :=
  toBytesLEChecked 32 (compress x y)

/-- The twisted Edwards curve equation check
`-x^2 + y^2 = 1 + d x^2 y^2 (mod q)`, written as the vanishing of
`y*y - x*x - 1 - d*x^2*y^2` modulo `q`. -/
def onCurve (x y : Int) : Prop :=
  (y * y - x * x - 1 - d * (x * x) * (y * y)) % q = 0

instance onCurve.instDecidable (x y : Int) : Decidable (onCurve x y) := by
  unfold onCurve
  infer_instance

/-- Modelled from the spec: pycryptodome's `ECC.EccPoint(x, y, "Ed25519")`
constructor validates that the coordinates satisfy the Ed25519 curve
equation and raises `InvalidPoint` otherwise (spec section 4.2, "Errors:
`InvalidPoint` if no square root exists"); on success it yields the
point. -/
def mkEccPoint (x y : Int) : Option (Int × Int) :=
  if onCurve x y then some (x, y) else none

/-- `decompress_key(key_byte)` from `Ed25519.py`; Python `key & 1` on the
nonnegative `key` is `key &&& 1`. -/
def decompress_key (key_byte : List Nat) : Option (Int × Int) :=
  let key : Nat := fromLE key_byte
  let x_odd : Int := ((key &&& 1 : Nat) : Int)
  let y : Int := ((key >>> 1 : Nat) : Int)
  let x : Int := xrecover y
  let x : Int := if x % 2 ≠ x_odd then q - x else x
  mkEccPoint x y

/-- All exponents fed to `powMod` by `Ed25519.py` are below `2 ^ 300`. -/
theorem exp_lt_two_pow_300 (e : Nat) (h : e ≤ 2 ^ 255 + 3) : e < 2 ^ 300 := by
  have h1 : (2 : Nat) ^ 256 = 2 * 2 ^ 255 := by rw [pow_succ]; ring
  have h2 : (2 : Nat) ^ 256 ≤ 2 ^ 300 := Nat.pow_le_pow_right (by norm_num) (by norm_num)
  have h3 : (4 : Nat) ≤ 2 ^ 255 :=
    le_trans (by norm_num : (4:Nat) ≤ 2 ^ 2) (Nat.pow_le_pow_right (by norm_num) (by norm_num))
  omega

end Ed25519
namespace Ed25519

set_option maxRecDepth 100000 in
theorem prime_1923133 : Nat.Prime 1923133 := by
  refine lucas_primality 1923133 ((2 : Nat) : ZMod 1923133)
    (zmod_pow_eq_one 2 (1923133 - 1) 1923133 (by norm_num)
      (exp_lt_two_pow_300 _ (by decide)) (by decide)) ?_
  intro r hr hdvd
  have hfac : 1923133 - 1 = 2 ^ 2 * (3 * (43 * (3727))) := by decide
  rw [hfac] at hdvd
  rcases (Nat.Prime.dvd_mul hr).mp hdvd with h | hdvd
  · have hre : r = 2 := prime_eq_of_dvd_pow 2 hr (by norm_num) h
    subst hre
    exact zmod_pow_ne_one 2 ((1923133 - 1) / 2) 1923133 (by norm_num)
      (exp_lt_two_pow_300 _ (by decide)) (by decide)
  rcases (Nat.Prime.dvd_mul hr).mp hdvd with h | hdvd
  · have hre : r = 3 := (Nat.prime_dvd_prime_iff_eq hr (by norm_num)).mp h
    subst hre
    exact zmod_pow_ne_one 2 ((1923133 - 1) / 3) 1923133 (by norm_num)
      (exp_lt_two_pow_300 _ (by decide)) (by decide)
  rcases (Nat.Prime.dvd_mul hr).mp hdvd with h | hdvd
  · have hre : r = 43 := (Nat.prime_dvd_prime_iff_eq hr (by norm_num)).mp h
    subst hre
    exact zmod_pow_ne_one 2 ((1923133 - 1) / 43) 1923133 (by norm_num)
      (exp_lt_two_pow_300 _ (by decide)) (by decide)
  have hre : r = 3727 := (Nat.prime_dvd_prime_iff_eq hr (by norm_num)).mp hdvd
  subst hre
  exact zmod_pow_ne_one 2 ((1923133 - 1) / 3727) 1923133 (by norm_num)
    (exp_lt_two_pow_300 _ (by decide)) (by decide)

set_option maxRecDepth 100000 in
theorem prime_8574133 : Nat.Prime 8574133 := by
  refine lucas_primality 8574133 ((2 : Nat) : ZMod 8574133)
    (zmod_pow_eq_one 2 (8574133 - 1) 8574133 (by norm_num)
      (exp_lt_two_pow_300 _ (by decide)) (by decide)) ?_
  intro r hr hdvd
  have hfac : 8574133 - 1 = 2 ^ 2 * (3 * (7 * (103 * (991)))) := by decide
  rw [hfac] at hdvd
  rcases (Nat.Prime.dvd_mul hr).mp hdvd with h | hdvd
  · have hre : r = 2 := prime_eq_of_dvd_pow 2 hr (by norm_num) h
    subst hre
    exact zmod_pow_ne_one 2 ((8574133 - 1) / 2) 8574133 (by norm_num)
      (exp_lt_two_pow_300 _ (by decide)) (by decide)
  rcases (Nat.Prime.dvd_mul hr).mp hdvd with h | hdvd
  · have hre : r = 3 := (Nat.prime_dvd_prime_iff_eq hr (by norm_num)).mp h
    subst hre
    exact zmod_pow_ne_one 2 ((8574133 - 1) / 3) 8574133 (by norm_num)
      (exp_lt_two_pow_300 _ (by decide)) (by decide)
  rcases (Nat.Prime.dvd_mul hr).mp hdvd with h | hdvd
  · have hre : r = 7 := (Nat.prime_dvd_prime_iff_eq hr (by norm_num)).mp h
    subst hre
    exact zmod_pow_ne_one 2 ((8574133 - 1) / 7) 8574133 (by norm_num)
      (exp_lt_two_pow_300 _ (by decide)) (by decide)
  rcases (Nat.Prime.dvd_mul hr).mp hdvd with h | hdvd
  · have hre : r = 103 := (Nat.prime_dvd_prime_iff_eq hr (by norm_num)).mp h
    subst hre
    exact zmod_pow_ne_one 2 ((8574133 - 1) / 103) 8574133 (by norm_num)
      (exp_lt_two_pow_300 _ (by decide)) (by decide)
  have hre : r = 991 := (Nat.prime_dvd_prime_iff_eq hr (by norm_num)).mp hdvd
  subst hre
  exact zmod_pow_ne_one 2 ((8574133 - 1) / 991) 8574133 (by norm_num)
    (exp_lt_two_pow_300 _ (by decide)) (by decide)

set_option maxRecDepth 100000 in
theorem prime_2773320623 : Nat.Prime 2773320623 := by
  refine lucas_primality 2773320623 ((5 : Nat) : ZMod 2773320623)
    (zmod_pow_eq_one 5 (2773320623 - 1) 2773320623 (by norm_num)
      (exp_lt_two_pow_300 _ (by decide)) (by decide)) ?_
  intro r hr hdvd
  have hfac : 2773320623 - 1 = 2 * (2437 * (569003)) := by decide
  rw [hfac] at hdvd
  rcases (Nat.Prime.dvd_mul hr).mp hdvd with h | hdvd
  · have hre : r = 2 := (Nat.prime_dvd_prime_iff_eq hr (by norm_num)).mp h
    subst hre
    exact zmod_pow_ne_one 5 ((2773320623 - 1) / 2) 2773320623 (by norm_num)
      (exp_lt_two_pow_300 _ (by decide)) (by decide)
  rcases (Nat.Prime.dvd_mul hr).mp hdvd with h | hdvd
  · have hre : r = 2437 := (Nat.prime_dvd_prime_iff_eq hr (by norm_num)).mp h
    subst hre
    exact zmod_pow_ne_one 5 ((2773320623 - 1) / 2437) 2773320623 (by norm_num)
      (exp_lt_two_pow_300 _ (by decide)) (by decide)
  have hre : r = 569003 := (Nat.prime_dvd_prime_iff_eq hr (by norm_num)).mp hdvd
  subst hre
  exact zmod_pow_ne_one 5 ((2773320623 - 1) / 569003) 2773320623 (by norm_num)
    (exp_lt_two_pow_300 _ (by decide)) (by decide)

set_option maxRecDepth 100000 in
theorem prime_72106336199 : Nat.Prime 72106336199 := by
  refine lucas_primality 72106336199 ((7 : Nat) : ZMod 72106336199)
    (zmod_pow_eq_one 7 (72106336199 - 1) 72106336199 (by norm_num)
      (exp_lt_two_pow_300 _ (by decide)) (by decide)) ?_
  intro r hr hdvd
  have hfac : 72106336199 - 1 = 2 * (13 * (2773320623)) := by decide
  rw [hfac] at hdvd
  rcases (Nat.Prime.dvd_mul hr).mp hdvd with h | hdvd
  · have hre : r = 2 := (Nat.prime_dvd_prime_iff_eq hr (by norm_num)).mp h
    subst hre
    exact zmod_pow_ne_one 7 ((72106336199 - 1) / 2) 72106336199 (by norm_num)
      (exp_lt_two_pow_300 _ (by decide)) (by decide)
  rcases (Nat.Prime.dvd_mul hr).mp hdvd with h | hdvd
  · have hre : r = 13 := (Nat.prime_dvd_prime_iff_eq hr (by norm_num)).mp h
    subst hre
    exact zmod_pow_ne_one 7 ((72106336199 - 1) / 13) 72106336199 (by norm_num)
      (exp_lt_two_pow_300 _ (by decide)) (by decide)
  have hre : r = 2773320623 := (Nat.prime_dvd_prime_iff_eq hr prime_2773320623).mp hdvd
  subst hre
  exact zmod_pow_ne_one 7 ((72106336199 - 1) / 2773320623) 72106336199 (by norm_num)
    (exp_lt_two_pow_300 _ (by decide)) (by decide)

set_option maxRecDepth 100000 in
theorem prime_1919519569386763 : Nat.Prime 1919519569386763 := by
  refine lucas_primality 1919519569386763 ((2 : Nat) : ZMod 1919519569386763)
    (zmod_pow_eq_one 2 (1919519569386763 - 1) 1919519569386763 (by norm_num)
      (exp_lt_two_pow_300 _ (by decide)) (by decide)) ?_
  intro r hr hdvd
  have hfac : 1919519569386763 - 1 = 2 * (3 * (7 * (19 * (47 ^ 2 * (127 * (8574133)))))) := by decide
  rw [hfac] at hdvd
  rcases (Nat.Prime.dvd_mul hr).mp hdvd with h | hdvd
  · have hre : r = 2 := (Nat.prime_dvd_prime_iff_eq hr (by norm_num)).mp h
    subst hre
    exact zmod_pow_ne_one 2 ((1919519569386763 - 1) / 2) 1919519569386763 (by norm_num)
      (exp_lt_two_pow_300 _ (by decide)) (by decide)
  rcases (Nat.Prime.dvd_mul hr).mp hdvd with h | hdvd
  · have hre : r = 3 := (Nat.prime_dvd_prime_iff_eq hr (by norm_num)).mp h
    subst hre
    exact zmod_pow_ne_one 2 ((1919519569386763 - 1) / 3) 1919519569386763 (by norm_num)
      (exp_lt_two_pow_300 _ (by decide)) (by decide)
  rcases (Nat.Prime.dvd_mul hr).mp hdvd with h | hdvd
  · have hre : r = 7 := (Nat.prime_dvd_prime_iff_eq hr (by norm_num)).mp h
    subst hre
    exact zmod_pow_ne_one 2 ((1919519569386763 - 1) / 7) 1919519569386763 (by norm_num)
      (exp_lt_two_pow_300 _ (by decide)) (by decide)
  rcases (Nat.Prime.dvd_mul hr).mp hdvd with h | hdvd
  · have hre : r = 19 := (Nat.prime_dvd_prime_iff_eq hr (by norm_num)).mp h
    subst hre
    exact zmod_pow_ne_one 2 ((1919519569386763 - 1) / 19) 1919519569386763 (by norm_num)
      (exp_lt_two_pow_300 _ (by decide)) (by decide)
  rcases (Nat.Prime.dvd_mul hr).mp hdvd with h | hdvd
  · have hre : r = 47 := prime_eq_of_dvd_pow 2 hr (by norm_num) h
    subst hre
    exact zmod_pow_ne_one 2 ((1919519569386763 - 1) / 47) 1919519569386763 (by norm_num)
      (exp_lt_two_pow_300 _ (by decide)) (by decide)
  rcases (Nat.Prime.dvd_mul hr).mp hdvd with h | hdvd
  · have hre : r = 127 := (Nat.prime_dvd_prime_iff_eq hr (by norm_num)).mp h
    subst hre
    exact zmod_pow_ne_one 2 ((1919519569386763 - 1) / 127) 1919519569386763 (by norm_num)
      (exp_lt_two_pow_300 _ (by decide)) (by decide)
  have hre : r = 8574133 := (Nat.prime_dvd_prime_iff_eq hr prime_8574133).mp hdvd
  subst hre
  exact zmod_pow_ne_one 2 ((1919519569386763 - 1) / 8574133) 1919519569386763 (by norm_num)
    (exp_lt_two_pow_300 _ (by decide)) (by decide)

set_option maxRecDepth 100000 in
theorem prime_31757755568855353 : Nat.Prime 31757755568855353 := by
  refine lucas_primality 31757755568855353 ((10 : Nat) : ZMod 31757755568855353)
    (zmod_pow_eq_one 10 (31757755568855353 - 1) 31757755568855353 (by norm_num)
      (exp_lt_two_pow_300 _ (by decide)) (by decide)) ?_
  intro r hr hdvd
  have hfac : 31757755568855353 - 1 = 2 ^ 3 * (3 * (31 * (107 * (223 * (4153 * (430751)))))) := by decide
  rw [hfac] at hdvd
  rcases (Nat.Prime.dvd_mul hr).mp hdvd with h | hdvd
  · have hre : r = 2 := prime_eq_of_dvd_pow 3 hr (by norm_num) h
    subst hre
    exact zmod_pow_ne_one 10 ((31757755568855353 - 1) / 2) 31757755568855353 (by norm_num)
      (exp_lt_two_pow_300 _ (by decide)) (by decide)
  rcases (Nat.Prime.dvd_mul hr).mp hdvd with h | hdvd
  · have hre : r = 3 := (Nat.prime_dvd_prime_iff_eq hr (by norm_num)).mp h
    subst hre
    exact zmod_pow_ne_one 10 ((31757755568855353 - 1) / 3) 31757755568855353 (by norm_num)
      (exp_lt_two_pow_300 _ (by decide)) (by decide)
  rcases (Nat.Prime.dvd_mul hr).mp hdvd with h | hdvd
  · have hre : r = 31 := (Nat.prime_dvd_prime_iff_eq hr (by norm_num)).mp h
    subst hre
    exact zmod_pow_ne_one 10 ((31757755568855353 - 1) / 31) 31757755568855353 (by norm_num)
      (exp_lt_two_pow_300 _ (by decide)) (by decide)
  rcases (Nat.Prime.dvd_mul hr).mp hdvd with h | hdvd
  · have hre : r = 107 := (Nat.prime_dvd_prime_iff_eq hr (by norm_num)).mp h
    subst hre
    exact zmod_pow_ne_one 10 ((31757755568855353 - 1) / 107) 31757755568855353 (by norm_num)
      (exp_lt_two_pow_300 _ (by decide)) (by decide)
  rcases (Nat.Prime.dvd_mul hr).mp hdvd with h | hdvd
  · have hre : r = 223 := (Nat.prime_dvd_prime_iff_eq hr (by norm_num)).mp h
    subst hre
    exact zmod_pow_ne_one 10 ((31757755568855353 - 1) / 223) 31757755568855353 (by norm_num)
      (exp_lt_two_pow_300 _ (by decide)) (by decide)
  rcases (Nat.Prime.dvd_mul hr).mp hdvd with h | hdvd
  · have hre : r = 4153 := (Nat.prime_dvd_prime_iff_eq hr (by norm_num)).mp h
    subst hre
    exact zmod_pow_ne_one 10 ((31757755568855353 - 1) / 4153) 31757755568855353 (by norm_num)
      (exp_lt_two_pow_300 _ (by decide)) (by decide)
  have hre : r = 430751 := (Nat.prime_dvd_prime_iff_eq hr (by norm_num)).mp hdvd
  subst hre
  exact zmod_pow_ne_one 10 ((31757755568855353 - 1) / 430751) 31757755568855353 (by norm_num)
    (exp_lt_two_pow_300 _ (by decide)) (by decide)

set_option maxRecDepth 100000 in
theorem prime_75445702479781427272750846543864801 : Nat.Prime 75445702479781427272750846543864801 := by
  refine lucas_primality 75445702479781427272750846543864801 ((7 : Nat) : ZMod 75445702479781427272750846543864801)
    (zmod_pow_eq_one 7 (75445702479781427272750846543864801 - 1) 75445702479781427272750846543864801 (by norm_num)
      (exp_lt_two_pow_300 _ (by decide)) (by decide)) ?_
  intro r hr hdvd
  have hfac : 75445702479781427272750846543864801 - 1 = 2 ^ 5 * (3 ^ 2 * (5 ^ 2 * (75707 * (72106336199 * (1919519569386763))))) := by decide
  rw [hfac] at hdvd
  rcases (Nat.Prime.dvd_mul hr).mp hdvd with h | hdvd
  · have hre : r = 2 := prime_eq_of_dvd_pow 5 hr (by norm_num) h
    subst hre
    exact zmod_pow_ne_one 7 ((75445702479781427272750846543864801 - 1) / 2) 75445702479781427272750846543864801 (by norm_num)
      (exp_lt_two_pow_300 _ (by decide)) (by decide)
  rcases (Nat.Prime.dvd_mul hr).mp hdvd with h | hdvd
  · have hre : r = 3 := prime_eq_of_dvd_pow 2 hr (by norm_num) h
    subst hre
    exact zmod_pow_ne_one 7 ((75445702479781427272750846543864801 - 1) / 3) 75445702479781427272750846543864801 (by norm_num)
      (exp_lt_two_pow_300 _ (by decide)) (by decide)
  rcases (Nat.Prime.dvd_mul hr).mp hdvd with h | hdvd
  · have hre : r = 5 := prime_eq_of_dvd_pow 2 hr (by norm_num) h
    subst hre
    exact zmod_pow_ne_one 7 ((75445702479781427272750846543864801 - 1) / 5) 75445702479781427272750846543864801 (by norm_num)
      (exp_lt_two_pow_300 _ (by decide)) (by decide)
  rcases (Nat.Prime.dvd_mul hr).mp hdvd with h | hdvd
  · have hre : r = 75707 := (Nat.prime_dvd_prime_iff_eq hr (by norm_num)).mp h
    subst hre
    exact zmod_pow_ne_one 7 ((75445702479781427272750846543864801 - 1) / 75707) 75445702479781427272750846543864801 (by norm_num)
      (exp_lt_two_pow_300 _ (by decide)) (by decide)
  rcases (Nat.Prime.dvd_mul hr).mp hdvd with h | hdvd
  · have hre : r = 72106336199 := (Nat.prime_dvd_prime_iff_eq hr prime_72106336199).mp h
    subst hre
    exact zmod_pow_ne_one 7 ((75445702479781427272750846543864801 - 1) / 72106336199) 75445702479781427272750846543864801 (by norm_num)
      (exp_lt_two_pow_300 _ (by decide)) (by decide)
  have hre : r = 1919519569386763 := (Nat.prime_dvd_prime_iff_eq hr prime_1919519569386763).mp hdvd
  subst hre
  exact zmod_pow_ne_one 7 ((75445702479781427272750846543864801 - 1) / 1919519569386763) 75445702479781427272750846543864801 (by norm_num)
    (exp_lt_two_pow_300 _ (by decide)) (by decide)

set_option maxRecDepth 100000 in
theorem prime_74058212732561358302231226437062788676166966415465897661863160754340907 : Nat.Prime 74058212732561358302231226437062788676166966415465897661863160754340907 := by
  refine lucas_primality 74058212732561358302231226437062788676166966415465897661863160754340907 ((2 : Nat) : ZMod 74058212732561358302231226437062788676166966415465897661863160754340907)
    (zmod_pow_eq_one 2 (74058212732561358302231226437062788676166966415465897661863160754340907 - 1) 74058212732561358302231226437062788676166966415465897661863160754340907 (by norm_num)
      (exp_lt_two_pow_300 _ (by decide)) (by decide)) ?_
  intro r hr hdvd
  have hfac : 74058212732561358302231226437062788676166966415465897661863160754340907 - 1 = 2 * (3 * (353 * (57467 * (132049 * (1923133 * (31757755568855353 * (75445702479781427272750846543864801))))))) := by decide
  rw [hfac] at hdvd
  rcases (Nat.Prime.dvd_mul hr).mp hdvd with h | hdvd
  · have hre : r = 2 := (Nat.prime_dvd_prime_iff_eq hr (by norm_num)).mp h
    subst hre
    exact zmod_pow_ne_one 2 ((74058212732561358302231226437062788676166966415465897661863160754340907 - 1) / 2) 74058212732561358302231226437062788676166966415465897661863160754340907 (by norm_num)
      (exp_lt_two_pow_300 _ (by decide)) (by decide)
  rcases (Nat.Prime.dvd_mul hr).mp hdvd with h | hdvd
  · have hre : r = 3 := (Nat.prime_dvd_prime_iff_eq hr (by norm_num)).mp h
    subst hre
    exact zmod_pow_ne_one 2 ((74058212732561358302231226437062788676166966415465897661863160754340907 - 1) / 3) 74058212732561358302231226437062788676166966415465897661863160754340907 (by norm_num)
      (exp_lt_two_pow_300 _ (by decide)) (by decide)
  rcases (Nat.Prime.dvd_mul hr).mp hdvd with h | hdvd
  · have hre : r = 353 := (Nat.prime_dvd_prime_iff_eq hr (by norm_num)).mp h
    subst hre
    exact zmod_pow_ne_one 2 ((74058212732561358302231226437062788676166966415465897661863160754340907 - 1) / 353) 74058212732561358302231226437062788676166966415465897661863160754340907 (by norm_num)
      (exp_lt_two_pow_300 _ (by decide)) (by decide)
  rcases (Nat.Prime.dvd_mul hr).mp hdvd with h | hdvd
  · have hre : r = 57467 := (Nat.prime_dvd_prime_iff_eq hr (by norm_num)).mp h
    subst hre
    exact zmod_pow_ne_one 2 ((74058212732561358302231226437062788676166966415465897661863160754340907 - 1) / 57467) 74058212732561358302231226437062788676166966415465897661863160754340907 (by norm_num)
      (exp_lt_two_pow_300 _ (by decide)) (by decide)
  rcases (Nat.Prime.dvd_mul hr).mp hdvd with h | hdvd
  · have hre : r = 132049 := (Nat.prime_dvd_prime_iff_eq hr (by norm_num)).mp h
    subst hre
    exact zmod_pow_ne_one 2 ((74058212732561358302231226437062788676166966415465897661863160754340907 - 1) / 132049) 74058212732561358302231226437062788676166966415465897661863160754340907 (by norm_num)
      (exp_lt_two_pow_300 _ (by decide)) (by decide)
  rcases (Nat.Prime.dvd_mul hr).mp hdvd with h | hdvd
  · have hre : r = 1923133 := (Nat.prime_dvd_prime_iff_eq hr prime_1923133).mp h
    subst hre
    exact zmod_pow_ne_one 2 ((74058212732561358302231226437062788676166966415465897661863160754340907 - 1) / 1923133) 74058212732561358302231226437062788676166966415465897661863160754340907 (by norm_num)
      (exp_lt_two_pow_300 _ (by decide)) (by decide)
  rcases (Nat.Prime.dvd_mul hr).mp hdvd with h | hdvd
  · have hre : r = 31757755568855353 := (Nat.prime_dvd_prime_iff_eq hr prime_31757755568855353).mp h
    subst hre
    exact zmod_pow_ne_one 2 ((74058212732561358302231226437062788676166966415465897661863160754340907 - 1) / 31757755568855353) 74058212732561358302231226437062788676166966415465897661863160754340907 (by norm_num)
      (exp_lt_two_pow_300 _ (by decide)) (by decide)
  have hre : r = 75445702479781427272750846543864801 := (Nat.prime_dvd_prime_iff_eq hr prime_75445702479781427272750846543864801).mp hdvd
  subst hre
  exact zmod_pow_ne_one 2 ((74058212732561358302231226437062788676166966415465897661863160754340907 - 1) / 75445702479781427272750846543864801) 74058212732561358302231226437062788676166966415465897661863160754340907 (by norm_num)
    (exp_lt_two_pow_300 _ (by decide)) (by decide)

set_option maxRecDepth 100000 in
theorem qn_prime : Nat.Prime qn := by
  refine lucas_primality qn ((2 : Nat) : ZMod qn)
    (zmod_pow_eq_one 2 (qn - 1) qn (by norm_num [qn])
      (exp_lt_two_pow_300 _ (by decide)) (by decide)) ?_
  intro r hr hdvd
  have hfac : qn - 1 = 2 ^ 2 * (3 * (65147 * (74058212732561358302231226437062788676166966415465897661863160754340907))) := by decide
  rw [hfac] at hdvd
  rcases (Nat.Prime.dvd_mul hr).mp hdvd with h | hdvd
  · have hre : r = 2 := prime_eq_of_dvd_pow 2 hr (by norm_num) h
    subst hre
    exact zmod_pow_ne_one 2 ((qn - 1) / 2) qn (by norm_num [qn])
      (exp_lt_two_pow_300 _ (by decide)) (by decide)
  rcases (Nat.Prime.dvd_mul hr).mp hdvd with h | hdvd
  · have hre : r = 3 := (Nat.prime_dvd_prime_iff_eq hr (by norm_num)).mp h
    subst hre
    exact zmod_pow_ne_one 2 ((qn - 1) / 3) qn (by norm_num [qn])
      (exp_lt_two_pow_300 _ (by decide)) (by decide)
  rcases (Nat.Prime.dvd_mul hr).mp hdvd with h | hdvd
  · have hre : r = 65147 := (Nat.prime_dvd_prime_iff_eq hr (by norm_num)).mp h
    subst hre
    exact zmod_pow_ne_one 2 ((qn - 1) / 65147) qn (by norm_num [qn])
      (exp_lt_two_pow_300 _ (by decide)) (by decide)
  have hre : r = 74058212732561358302231226437062788676166966415465897661863160754340907 := (Nat.prime_dvd_prime_iff_eq hr prime_74058212732561358302231226437062788676166966415465897661863160754340907).mp hdvd
  subst hre
  exact zmod_pow_ne_one 2 ((qn - 1) / 74058212732561358302231226437062788676166966415465897661863160754340907) qn (by norm_num [qn])
    (exp_lt_two_pow_300 _ (by decide)) (by decide)


instance fact_qn_prime : Fact (Nat.Prime qn) := ⟨qn_prime⟩

instance : NeZero qn := ⟨by decide⟩

end Ed25519
namespace Ed25519

theorem intCast_zmodq_eq_iff (a b : Int) :
    ((a : ZMod qn) = (b : ZMod qn)) ↔ (a - b) % q = 0 := by
  rw [ZMod.intCast_eq_intCast_iff', Int.emod_eq_emod_iff_emod_sub_eq_zero]
  exact Iff.rfl

theorem q_cast_zero : ((q : Int) : ZMod qn) = 0 := by
  show (((qn : Nat) : Int) : ZMod qn) = 0
  rw [Int.cast_natCast]
  exact ZMod.natCast_self qn

theorem zmodq_one_ne_neg_one : (1 : ZMod qn) ≠ -1 := by
  intro h
  have h2 : ((2 : Nat) : ZMod qn) = 0 := by
    push_cast
    linear_combination h
  rw [ZMod.natCast_zmod_eq_zero_iff_dvd] at h2
  have h3 := Nat.le_of_dvd (by norm_num) h2
  exact absurd h3 (by decide)

/-- Fermat: multiplying `w ^ (qn - 2)` by `w` gives `1` for nonzero `w`,
so `inv` computes the field inverse. -/
theorem pow_qn_sub_two_mul (w : ZMod qn) (hw : w ≠ 0) : w ^ (qn - 2) * w = 1 := by
  have h : qn - 2 + 1 = qn - 1 := by decide
  rw [← pow_succ, h]
  exact ZMod.pow_card_sub_one_eq_one hw

set_option maxRecDepth 100000 in
/-- The curve constant `d` is a quadratic non-residue modulo `q`
(computed via Euler's criterion). -/
theorem d_pow_half : (d : ZMod qn) ^ ((qn - 1) / 2) = -1 := by
  have hcomp : powModZ d ((qn - 1) / 2) qn = ((qn : Nat) : Int) - 1 := by decide
  have h := zmod_intCast_powModZ d ((qn - 1) / 2) qn qn_pos
    (exp_lt_two_pow_300 _ (by decide))
  rw [hcomp] at h
  rw [← h]
  push_cast
  rw [ZMod.natCast_self]
  ring

theorem d_not_square (z : ZMod qn) : z * z ≠ (d : ZMod qn) := by
  intro hz
  have h2 : 2 * ((qn - 1) / 2) = qn - 1 := by decide
  by_cases hz0 : z = 0
  · rw [hz0, mul_zero] at hz
    have h3 := d_pow_half
    rw [← hz] at h3
    rw [zero_pow (by decide : (qn - 1) / 2 ≠ 0)] at h3
    exact zmodq_one_ne_neg_one (by linear_combination 2 * h3)
  · have heuler : z ^ (qn - 1) = 1 := ZMod.pow_card_sub_one_eq_one hz0
    have h4 : (d : ZMod qn) ^ ((qn - 1) / 2) = 1 := by
      rw [← hz, ← sq, ← pow_mul, h2, heuler]
    have h5 := d_pow_half
    rw [h4] at h5
    exact zmodq_one_ne_neg_one h5

set_option maxRecDepth 100000 in
/-- `I = 2 ^ ((q-1)/4)` is a square root of `-1` modulo `q`. -/
theorem I_sq_neg_one : (I : ZMod qn) * (I : ZMod qn) = -1 := by
  have hcomp : (I * I - (((qn : Nat) : Int) - 1)) % ((qn : Nat) : Int) = 0 := by decide
  have h := (intCast_zmodq_eq_iff (I * I) (((qn : Nat) : Int) - 1)).mpr hcomp
  push_cast at h
  rw [ZMod.natCast_self] at h
  rw [h]
  ring

/-- The denominator `d*y*y + 1` of `xx` never vanishes modulo `q`
(otherwise `d` would be a square). -/
theorem denom_ne_zero (b : ZMod qn) : (d : ZMod qn) * b * b + 1 ≠ 0 := by
  intro hw
  by_cases hb : b = 0
  · rw [hb] at hw
    simp at hw
  · have hb2 : b * b ≠ 0 := mul_ne_zero hb hb
    have h1 : (d : ZMod qn) * (b * b) = -1 := by linear_combination hw
    have hstep : (b * b) ^ (qn - 2) * (b * b) = 1 := pow_qn_sub_two_mul _ hb2
    have hdd : (d : ZMod qn) = -((b * b) ^ (qn - 2)) := by
      calc (d : ZMod qn) = (d : ZMod qn) * ((b * b) ^ (qn - 2) * (b * b)) := by
            rw [hstep, mul_one]
        _ = ((d : ZMod qn) * (b * b)) * (b * b) ^ (qn - 2) := by ring
        _ = -1 * (b * b) ^ (qn - 2) := by rw [h1]
        _ = -((b * b) ^ (qn - 2)) := by ring
    apply d_not_square ((I : ZMod qn) * b ^ (qn - 2))
    calc ((I : ZMod qn) * b ^ (qn - 2)) * ((I : ZMod qn) * b ^ (qn - 2))
        = ((I : ZMod qn) * (I : ZMod qn)) * (b ^ (qn - 2) * b ^ (qn - 2)) := by ring
      _ = -1 * (b ^ (qn - 2) * b ^ (qn - 2)) := by rw [I_sq_neg_one]
      _ = -((b * b) ^ (qn - 2)) := by rw [mul_pow]; ring
      _ = (d : ZMod qn) := hdd.symm

theorem xxOf_cast (y : Int) :
    ((xxOf y : Int) : ZMod qn) =
      ((y : ZMod qn) * (y : ZMod qn) - 1) *
        ((d : ZMod qn) * (y : ZMod qn) * (y : ZMod qn) + 1) ^ (qn - 2) := by
  unfold xxOf inv
  push_cast
  rw [zmod_intCast_powModZ _ _ _ qn_pos (exp_lt_two_pow_300 _ (by decide))]
  push_cast
  ring

/-- The curve equation holds at `(a, b)` iff `a^2` equals the `xx` value
that `xrecover` computes from `b`. -/
theorem onCurve_iff_sq (a b : Int) :
    onCurve a b ↔
      (a : ZMod qn) * (a : ZMod qn) = ((xxOf b : Int) : ZMod qn) := by
  have hw : (d : ZMod qn) * (b : ZMod qn) * (b : ZMod qn) + 1 ≠ 0 := denom_ne_zero _
  have hstep : ((d : ZMod qn) * (b : ZMod qn) * (b : ZMod qn) + 1) ^ (qn - 2) *
      ((d : ZMod qn) * (b : ZMod qn) * (b : ZMod qn) + 1) = 1 := pow_qn_sub_two_mul _ hw
  rw [xxOf_cast]
  unfold onCurve
  constructor
  · intro h
    have h0 : ((b * b - a * a - 1 - d * (a * a) * (b * b) : Int) : ZMod qn) =
        ((0 : Int) : ZMod qn) := by
      apply (intCast_zmodq_eq_iff _ _).mpr
      rw [sub_zero]
      exact h
    push_cast at h0
    have hmain : (a : ZMod qn) * (a : ZMod qn) *
        ((d : ZMod qn) * (b : ZMod qn) * (b : ZMod qn) + 1) =
        (b : ZMod qn) * (b : ZMod qn) - 1 := by linear_combination -h0
    calc (a : ZMod qn) * (a : ZMod qn)
        = (a : ZMod qn) * (a : ZMod qn) *
            (((d : ZMod qn) * (b : ZMod qn) * (b : ZMod qn) + 1) ^ (qn - 2) *
              ((d : ZMod qn) * (b : ZMod qn) * (b : ZMod qn) + 1)) := by
          rw [hstep, mul_one]
      _ = ((a : ZMod qn) * (a : ZMod qn) *
            ((d : ZMod qn) * (b : ZMod qn) * (b : ZMod qn) + 1)) *
            ((d : ZMod qn) * (b : ZMod qn) * (b : ZMod qn) + 1) ^ (qn - 2) := by ring
      _ = ((b : ZMod qn) * (b : ZMod qn) - 1) *
            ((d : ZMod qn) * (b : ZMod qn) * (b : ZMod qn) + 1) ^ (qn - 2) := by rw [hmain]
  · intro h
    have hmain : (a : ZMod qn) * (a : ZMod qn) *
        ((d : ZMod qn) * (b : ZMod qn) * (b : ZMod qn) + 1) =
        (b : ZMod qn) * (b : ZMod qn) - 1 := by
      calc (a : ZMod qn) * (a : ZMod qn) *
          ((d : ZMod qn) * (b : ZMod qn) * (b : ZMod qn) + 1)
          = (((b : ZMod qn) * (b : ZMod qn) - 1) *
              ((d : ZMod qn) * (b : ZMod qn) * (b : ZMod qn) + 1) ^ (qn - 2)) *
              ((d : ZMod qn) * (b : ZMod qn) * (b : ZMod qn) + 1) := by rw [h]
        _ = ((b : ZMod qn) * (b : ZMod qn) - 1) *
              (((d : ZMod qn) * (b : ZMod qn) * (b : ZMod qn) + 1) ^ (qn - 2) *
                ((d : ZMod qn) * (b : ZMod qn) * (b : ZMod qn) + 1)) := by ring
        _ = (b : ZMod qn) * (b : ZMod qn) - 1 := by rw [hstep, mul_one]
    have h0 : ((b * b - a * a - 1 - d * (a * a) * (b * b) : Int) : ZMod qn) =
        ((0 : Int) : ZMod qn) := by
      push_cast
      linear_combination -hmain
    have h1 := (intCast_zmodq_eq_iff _ _).mp h0
    rwa [sub_zero] at h1

theorem int_root_iff (xx : Int) :
    (∃ r : Int, (r * r - xx) % q = 0) ↔ ∃ s : ZMod qn, s * s = (xx : ZMod qn) := by
  constructor
  · rintro ⟨r, hr⟩
    refine ⟨(r : ZMod qn), ?_⟩
    have h := (intCast_zmodq_eq_iff (r * r) xx).mpr hr
    push_cast at h
    exact h
  · rintro ⟨s, hs⟩
    refine ⟨(s.val : Int), (intCast_zmodq_eq_iff ((s.val : Int) * (s.val : Int)) xx).mp ?_⟩
    have hv : ((s.val : Nat) : ZMod qn) = s := by
      rw [ZMod.natCast_val, ZMod.cast_id]
    push_cast
    rw [hv, hs]

theorem sqrt_step (XX : ZMod qn) :
    ((∃ s : ZMod qn, s * s = XX) →
        XX ^ ((qn + 3) / 8) * XX ^ ((qn + 3) / 8) = XX ∨
          (XX ^ ((qn + 3) / 8) * (I : ZMod qn)) * (XX ^ ((qn + 3) / 8) * (I : ZMod qn)) = XX) ∧
      (¬ (∃ s : ZMod qn, s * s = XX) →
        ¬ XX ^ ((qn + 3) / 8) * XX ^ ((qn + 3) / 8) = XX ∧
          ¬ (XX ^ ((qn + 3) / 8) * (I : ZMod qn)) * (XX ^ ((qn + 3) / 8) * (I : ZMod qn)) = XX) := by
  constructor
  · rintro ⟨s, hs⟩
    by_cases hXX : XX = 0
    · left
      rw [hXX, zero_pow (by decide : (qn + 3) / 8 ≠ 0), mul_zero]
    · have hs0 : s ≠ 0 := by
        intro h
        rw [h, mul_zero] at hs
        exact hXX hs.symm
      have heuler : s ^ (qn - 1) = 1 := ZMod.pow_card_sub_one_eq_one hs0
      have h2 : 2 * ((qn - 1) / 2) = qn - 1 := by decide
      have he2 : XX ^ ((qn - 1) / 2) = 1 := by
        rw [← hs, ← sq, ← pow_mul, h2, heuler]
      have hexp : (qn + 3) / 8 + (qn + 3) / 8 + ((qn + 3) / 8 + (qn + 3) / 8) =
          (qn - 1) / 2 + (1 + 1) := by decide
      have hkey : (XX ^ ((qn + 3) / 8) * XX ^ ((qn + 3) / 8)) *
          (XX ^ ((qn + 3) / 8) * XX ^ ((qn + 3) / 8)) = XX * XX := by
        calc (XX ^ ((qn + 3) / 8) * XX ^ ((qn + 3) / 8)) *
            (XX ^ ((qn + 3) / 8) * XX ^ ((qn + 3) / 8))
            = XX ^ ((qn + 3) / 8 + (qn + 3) / 8 + ((qn + 3) / 8 + (qn + 3) / 8)) := by
              rw [← pow_add, ← pow_add]
          _ = XX ^ ((qn - 1) / 2 + (1 + 1)) := by rw [hexp]
          _ = XX ^ ((qn - 1) / 2) * (XX ^ 1 * XX ^ 1) := by rw [pow_add, pow_add]
          _ = XX * XX := by rw [he2, pow_one, one_mul]
      rcases mul_self_eq_mul_self_iff.mp hkey with h | h
      · exact Or.inl h
      · right
        calc (XX ^ ((qn + 3) / 8) * (I : ZMod qn)) * (XX ^ ((qn + 3) / 8) * (I : ZMod qn))
            = (XX ^ ((qn + 3) / 8) * XX ^ ((qn + 3) / 8)) *
                ((I : ZMod qn) * (I : ZMod qn)) := by ring
          _ = -XX * -1 := by rw [h, I_sq_neg_one]
          _ = XX := by ring
  · intro hno
    constructor
    · intro h; exact hno ⟨XX ^ ((qn + 3) / 8), h⟩
    · intro h; exact hno ⟨XX ^ ((qn + 3) / 8) * (I : ZMod qn), h⟩

end Ed25519

namespace Ed25519

theorem xrecover_eq (y : Int) :
    xrecover y =
      (if (if (powModZ (xxOf y) ((qn + 3) / 8) qn * powModZ (xxOf y) ((qn + 3) / 8) qn -
                xxOf y) % q ≠ 0
            then powModZ (xxOf y) ((qn + 3) / 8) qn * I % q
            else powModZ (xxOf y) ((qn + 3) / 8) qn) % 2 ≠ 0
        then q - (if (powModZ (xxOf y) ((qn + 3) / 8) qn * powModZ (xxOf y) ((qn + 3) / 8) qn -
                xxOf y) % q ≠ 0
            then powModZ (xxOf y) ((qn + 3) / 8) qn * I % q
            else powModZ (xxOf y) ((qn + 3) / 8) qn)
        else (if (powModZ (xxOf y) ((qn + 3) / 8) qn * powModZ (xxOf y) ((qn + 3) / 8) qn -
                xxOf y) % q ≠ 0
            then powModZ (xxOf y) ((qn + 3) / 8) qn * I % q
            else powModZ (xxOf y) ((qn + 3) / 8) qn)) := rfl

theorem decompress_key_eq (key_byte : List Nat) :
    decompress_key key_byte =
      mkEccPoint
        (if xrecover ((fromLE key_byte >>> 1 : Nat) : Int) % 2 ≠
              ((fromLE key_byte &&& 1 : Nat) : Int)
          then q - xrecover ((fromLE key_byte >>> 1 : Nat) : Int)
          else xrecover ((fromLE key_byte >>> 1 : Nat) : Int))
        ((fromLE key_byte >>> 1 : Nat) : Int) := rfl

end Ed25519

namespace Ed25519

/-- `xrecover` returns an even value in `[0, q)` whose square modulo `q`
is `xx` exactly when `xx` has a square root modulo `q`. -/
theorem xrecover_correct (y : Int) :
    0 ≤ xrecover y ∧ xrecover y < q ∧ xrecover y % 2 = 0 ∧
      ((xrecover y : ZMod qn) * (xrecover y : ZMod qn) = ((xxOf y : Int) : ZMod qn) ↔
        ∃ s : ZMod qn, s * s = ((xxOf y : Int) : ZMod qn)) := by
  have hq0 : (0 : Int) < q := by decide
  have hqne : q ≠ 0 := by decide
  have hq2 : q % 2 = 1 := by decide
  rw [xrecover_eq]
  set b := powModZ (xxOf y) ((qn + 3) / 8) qn with hb
  have hb0 : 0 ≤ b := by
    rw [hb]
    exact Int.natCast_nonneg _
  have hbq : b < q := by
    rw [hb]
    show ((powMod (xxOf y % (qn : Int)).toNat ((qn + 3) / 8) qn : Nat) : Int) <
      ((qn : Nat) : Int)
    exact_mod_cast powMod_lt _ _ _ qn_pos
  have hbK : (b : ZMod qn) = ((xxOf y : Int) : ZMod qn) ^ ((qn + 3) / 8) := by
    rw [hb]
    exact zmod_intCast_powModZ _ _ _ qn_pos (exp_lt_two_pow_300 _ (by decide))
  set x1 := if (b * b - xxOf y) % q ≠ 0 then b * I % q else b with hx1
  have hx1b : (0 ≤ x1 ∧ x1 < q) ∧
      ((x1 : ZMod qn) * (x1 : ZMod qn) = ((xxOf y : Int) : ZMod qn) ↔
        ∃ s : ZMod qn, s * s = ((xxOf y : Int) : ZMod qn)) := by
    obtain ⟨hex, hnex⟩ := sqrt_step ((xxOf y : Int) : ZMod qn)
    rw [hx1]
    by_cases hc : (b * b - xxOf y) % q ≠ 0
    · rw [if_pos hc]
      have hbne : ¬ ((b : ZMod qn) * (b : ZMod qn) = ((xxOf y : Int) : ZMod qn)) := by
        intro he
        apply hc
        apply (intCast_zmodq_eq_iff (b * b) (xxOf y)).mp
        push_cast
        exact he
      rw [hbK] at hbne
      have hcast : ((b * I % q : Int) : ZMod qn) =
          ((xxOf y : Int) : ZMod qn) ^ ((qn + 3) / 8) * (I : ZMod qn) := by
        calc ((b * I % q : Int) : ZMod qn) = ((b * I : Int) : ZMod qn) :=
              intCast_emod_zmod (b * I) qn
          _ = (b : ZMod qn) * (I : ZMod qn) := by push_cast; ring
          _ = ((xxOf y : Int) : ZMod qn) ^ ((qn + 3) / 8) * (I : ZMod qn) := by rw [hbK]
      refine ⟨⟨Int.emod_nonneg _ hqne, Int.emod_lt_of_pos _ hq0⟩, ?_⟩
      rw [hcast]
      constructor
      · intro h
        exact ⟨_, h⟩
      · intro hs
        rcases hex hs with h | h
        · exact absurd h hbne
        · exact h
    · rw [if_neg hc]
      push_neg at hc
      have hbeq : (b : ZMod qn) * (b : ZMod qn) = ((xxOf y : Int) : ZMod qn) := by
        have h := (intCast_zmodq_eq_iff (b * b) (xxOf y)).mpr hc
        push_cast at h
        exact h
      exact ⟨⟨hb0, hbq⟩, fun _ => ⟨_, hbeq⟩, fun _ => hbeq⟩
  obtain ⟨⟨hx10, hx1q⟩, hx1iff⟩ := hx1b
  by_cases hp : x1 % 2 ≠ 0
  · rw [if_pos hp]
    have hcast : ((q - x1 : Int) : ZMod qn) = -(x1 : ZMod qn) := by
      push_cast
      rw [q_cast_zero]
      ring
    refine ⟨by omega, by omega, by omega, ?_⟩
    rw [hcast, neg_mul_neg]
    exact hx1iff
  · rw [if_neg hp]
    push_neg at hp
    exact ⟨hx10, hx1q, hp, hx1iff⟩

end Ed25519

namespace Ed25519

theorem compress_eq (x y : Nat) : compress x y = 2 * y + x % 2 := by
  unfold compress
  rw [Nat.shiftLeft_eq, Nat.and_one_is_mod, pow_one, Nat.mul_comm]
  exact two_mul_lor_eq_add y (x % 2) (Nat.mod_lt x (by norm_num))

theorem compress_lt (x y : Nat) (hy : y < qn) : compress x y < 2 ^ (8 * 32) := by
  rw [compress_eq]
  have h1 : qn ≤ 2 ^ 255 := by decide
  have h2 : (2 : Nat) ^ (8 * 32) = 2 * 2 ^ 255 := by norm_num [pow_succ]
  omega

/-- Two integers in `[0, q)` that agree modulo `2` and whose difference or
sum is divisible by `q` are equal. -/
theorem int_eq_of_sq_congr (a b : Int)
    (ha0 : 0 ≤ a) (haq : a < q) (hb0 : 0 ≤ b) (hbq : b < q)
    (hcong : q ∣ (a - b) ∨ q ∣ (a + b))
    (hpar : a % 2 = b % 2) : a = b := by
  have hq0 : (0 : Int) < q := by decide
  have hq2 : q % 2 = 1 := by decide
  rcases hcong with h | h
  · have h0 := Int.eq_zero_of_abs_lt_dvd h (abs_lt.mpr ⟨by omega, by omega⟩)
    omega
  · rcases h with ⟨k, hk⟩
    have hk0 : 0 ≤ k := (mul_nonneg_iff_of_pos_left hq0).mp (by omega)
    have hk2 : k < 2 := by
      have hlt : q * k < q * 2 := by rw [← hk]; omega
      exact (mul_lt_mul_left hq0).mp hlt
    interval_cases k
    · rw [mul_zero] at hk
      omega
    · rw [mul_one] at hk
      omega

/-- The `ZMod` bridge: equality of casts gives `q`-divisibility of the
difference. -/
theorem zmodq_dvd_sub {a b : Int} (h : (a : ZMod qn) = (b : ZMod qn)) : q ∣ (a - b) := by
  have h0 : ((a - b : Int) : ZMod qn) = 0 := by
    push_cast
    rw [h]
    ring
  exact (ZMod.intCast_zmod_eq_zero_iff_dvd _ _).mp h0

theorem zmodq_dvd_add {a b : Int} (h : (a : ZMod qn) = -(b : ZMod qn)) : q ∣ (a + b) := by
  have h0 : ((a + b : Int) : ZMod qn) = 0 := by
    push_cast
    rw [h]
    ring
  exact (ZMod.intCast_zmod_eq_zero_iff_dvd _ _).mp h0

end Ed25519

open Ed25519 in
/-- C3: Ed25519 round-trip.  For every curve point with coordinates in
`[0, q)` satisfying the curve equation (every generated point),
decompressing the 32-byte little-endian compression `y << 1 | (x & 1)`
recovers exactly the original point: `xrecover` rebuilds `x` from `y` up
to sign and the stored parity bit selects the right sign. -/
theorem C3_compress_then_decompress_roundtrip (x y : Nat) (hx : x < Ed25519.qn)
    (hy : y < Ed25519.qn) (hcurve : Ed25519.onCurve (x : Int) (y : Int)) :
    (Ed25519.compress_key x y).bind Ed25519.decompress_key = some ((x : Int), (y : Int)) := by
  have hlt : compress x y < 2 ^ (8 * 32) := compress_lt x y hy
  have h1 : compress_key x y = some (toBytesLE 32 (compress x y)) := by
    unfold compress_key toBytesLEChecked
    rw [if_pos hlt]
  rw [h1, Option.some_bind, decompress_key_eq]
  have hfrom : fromLE (toBytesLE 32 (compress x y)) = compress x y :=
    fromLE_toBytesLE 32 _ hlt
  rw [hfrom]
  have hodd : compress x y &&& 1 = x % 2 := by
    rw [compress_eq, Nat.and_one_is_mod]
    omega
  have hshift : compress x y >>> 1 = y := by
    rw [compress_eq, Nat.shiftRight_one]
    omega
  rw [hodd, hshift]
  obtain ⟨hr0, hrq, hr2, hriff⟩ := xrecover_correct (y : Int)
  have hxx := (onCurve_iff_sq (x : Int) (y : Int)).mp hcurve
  have hsq := hriff.mpr ⟨_, hxx⟩
  set xr := xrecover (y : Int) with hxrdef
  have hxlt : (x : Int) < q := by
    show (x : Int) < ((qn : Nat) : Int)
    exact_mod_cast hx
  have hx0 : (0 : Int) ≤ (x : Int) := Int.natCast_nonneg x
  have hdisj := mul_self_eq_mul_self_iff.mp (hsq.trans hxx.symm)
  have hq0 : (0 : Int) < q := by decide
  have hq2 : q % 2 = 1 := by decide
  have hxf : (if xr % 2 ≠ ((x % 2 : Nat) : Int) then q - xr else xr) = (x : Int) := by
    by_cases hpe : x % 2 = 0
    · have hcnd : ¬ (xr % 2 ≠ ((x % 2 : Nat) : Int)) := by omega
      rw [if_neg hcnd]
      have hpar2 : xr % 2 = (x : Int) % 2 := by omega
      rcases hdisj with h | h
      · exact int_eq_of_sq_congr xr (x : Int) hr0 hrq hx0 hxlt
          (Or.inl (zmodq_dvd_sub h)) hpar2
      · exact int_eq_of_sq_congr xr (x : Int) hr0 hrq hx0 hxlt
          (Or.inr (zmodq_dvd_add h)) hpar2
    · have hpe1 : x % 2 = 1 := by omega
      have hcnd : xr % 2 ≠ ((x % 2 : Nat) : Int) := by omega
      rw [if_pos hcnd]
      have hxrne : xr ≠ 0 := by
        intro h0
        have hK0 : (xr : ZMod qn) = 0 := by
          rw [h0]
          exact Int.cast_zero
        have hxsq0 : ((x : Int) : ZMod qn) * ((x : Int) : ZMod qn) = 0 := by
          rw [hxx, ← hsq, hK0, mul_zero]
        have hxK : ((x : Int) : ZMod qn) = 0 := mul_self_eq_zero.mp hxsq0
        have hdvd : ((qn : Nat) : Int) ∣ (x : Int) :=
          (ZMod.intCast_zmod_eq_zero_iff_dvd _ _).mp hxK
        have hdvdN : qn ∣ x := by exact_mod_cast hdvd
        have hx00 : x = 0 := Nat.eq_zero_of_dvd_of_lt hdvdN hx
        omega
      have hcastqa : ((q - xr : Int) : ZMod qn) = -(xr : ZMod qn) := by
        push_cast
        rw [q_cast_zero]
        ring
      have hpar2 : (q - xr) % 2 = (x : Int) % 2 := by omega
      rcases hdisj with h | h
      · refine int_eq_of_sq_congr (q - xr) (x : Int) (by omega) (by omega) hx0 hxlt
          (Or.inr (zmodq_dvd_add ?_)) hpar2
        rw [hcastqa, h]
      · refine int_eq_of_sq_congr (q - xr) (x : Int) (by omega) (by omega) hx0 hxlt
          (Or.inl (zmodq_dvd_sub ?_)) hpar2
        rw [hcastqa, h, neg_neg]
  rw [hxf]
  unfold mkEccPoint
  rw [if_pos hcurve]

set_option maxRecDepth 1000000 in
open Ed25519 in
/-- Witness for C3 at the Ed25519 base point. -/
theorem C3_compress_then_decompress_roundtrip_witness :
    (Ed25519.compress_key
          15112221349535400772501151409588531511454012693041857206046113283949847762202
          46316835694926478169428394003475163141307993866256225615783033603165251855960).bind
        Ed25519.decompress_key =
      some
        (((15112221349535400772501151409588531511454012693041857206046113283949847762202 :
            Nat) : Int),
          ((46316835694926478169428394003475163141307993866256225615783033603165251855960 :
            Nat) : Int)) :=
  C3_compress_then_decompress_roundtrip
    15112221349535400772501151409588531511454012693041857206046113283949847762202
    46316835694926478169428394003475163141307993866256225615783033603165251855960
    (by decide) (by decide) (by decide)

open Ed25519 in
/-- C7: `decompress_key` fails (pycryptodome raises `InvalidPoint`)
exactly when the value `xx = (y*y - 1) * inv(d*y*y + 1)` computed for the
decoded `y` has no square root modulo `q`; whenever it returns a point,
that point satisfies the curve equation. -/
theorem C7_decompress_invalid_iff_no_square_root (key_byte : List Nat) :
    (Ed25519.decompress_key key_byte = none ↔
        ¬ ∃ r : Int,
          (r * r - Ed25519.xxOf ((fromLE key_byte >>> 1 : Nat) : Int)) % Ed25519.q = 0) ∧
      ∀ p : Int × Int,
        Ed25519.decompress_key key_byte = some p → Ed25519.onCurve p.1 p.2 := by
  rw [decompress_key_eq]
  obtain ⟨hr0, hrq, hr2, hriff⟩ := xrecover_correct ((fromLE key_byte >>> 1 : Nat) : Int)
  set yI : Int := ((fromLE key_byte >>> 1 : Nat) : Int) with hyI
  set xr := xrecover yI with hxr
  set xf := (if xr % 2 ≠ ((fromLE key_byte &&& 1 : Nat) : Int) then q - xr else xr) with hxf
  have hsqf : (xf : ZMod qn) * (xf : ZMod qn) = (xr : ZMod qn) * (xr : ZMod qn) := by
    rw [hxf]
    split
    · have hcq : ((q - xr : Int) : ZMod qn) = -(xr : ZMod qn) := by
        push_cast
        rw [q_cast_zero]
        ring
      rw [hcq, neg_mul_neg]
    · rfl
  have hciff := onCurve_iff_sq xf yI
  have hroot := int_root_iff (xxOf yI)
  constructor
  · unfold mkEccPoint
    by_cases hc : onCurve xf yI
    · rw [if_pos hc]
      constructor
      · intro h
        exact Option.noConfusion h
      · intro hno
        exact absurd (hroot.mpr ⟨_, hciff.mp hc⟩) hno
    · rw [if_neg hc]
      constructor
      · intro _ hex
        apply hc
        apply hciff.mpr
        rw [hsqf]
        exact hriff.mpr (hroot.mp hex)
      · intro _
        rfl
  · intro p hp
    unfold mkEccPoint at hp
    by_cases hc : onCurve xf yI
    · rw [if_pos hc] at hp
      rw [← Option.some.inj hp]
      exact hc
    · rw [if_neg hc] at hp
      exact Option.noConfusion hp
